import Mathlib

/-!
# Verification of the dependency-graph core (Address model, dependency
resolution, transitive closure with cycle coarsening, owners index)

The implementation modules themselves (`pants/build_graph/address.py`,
`pants/engine/internals/graph.py`) are not part of the provided sources; only
their test suites are.  Every definition below carrying a doc comment starting
with `Modelled from the spec:` is therefore a shallow embedding reconstructed
from the specification's description of the missing module, cross-checked
against the expectations hard-coded in `address_test.py` and `graph_test.py`.

Strings are embedded as `List Char` so that every operation is directly
computable by the kernel.
-/

/-- Character strings, as plain character lists. -/
abbrev Str := List Char

/-- Embed a Lean string literal. -/
def str (s : String) : Str := s.data

/-- Split at the first occurrence of `c`: returns the part before it and,
when `c` occurs, the part after it. -/
def splitFirst (c : Char) : Str → Str × Option Str
  | [] => ([], none)
  | ch :: rest =>
    if ch = c then ([], some rest)
    else
      let p := splitFirst c rest
      (ch :: p.1, p.2)

/-- Split on every occurrence of `c` (like Python's `str.split(c)`):
always returns at least one (possibly empty) component. -/
def splitOnCh (c : Char) : Str → List Str
  | [] => [[]]
  | ch :: rest =>
    let r := splitOnCh c rest
    if ch = c then [] :: r
    else (ch :: r.headD []) :: r.tail

/-- Join components with separator `c` (inverse of `splitOnCh`). -/
def joinCh (c : Char) : List Str → Str
  | [] => []
  | [x] => x
  | x :: y :: xs => x ++ c :: joinCh c (y :: xs)

/-- Boolean test that `pat` is an initial segment of the second list. -/
def leadsWith : Str → Str → Bool
  | [], _ => true
  | _ :: _, [] => false
  | a :: as, b :: bs => a = b && leadsWith as bs

/-- Boolean test that `pat` is a final segment of the second list. -/
def trailsWith (pat s : Str) : Bool := leadsWith pat.reverse s.reverse

/-- Order-preserving deduplication, keeping the first occurrence;
`seen` accumulates the elements already emitted. -/
def dedupeAux {α : Type} [DecidableEq α] (seen : List α) : List α → List α
  | [] => []
  | a :: rest =>
    if seen.contains a then dedupeAux seen rest
    else a :: dedupeAux (a :: seen) rest

/-- Order-preserving deduplication keeping first occurrences. -/
def dedupe {α : Type} [DecidableEq α] (l : List α) : List α := dedupeAux [] l

/-- Number of occurrences of character `c`. -/
def countCh (c : Char) (s : Str) : Nat := s.countP (· = c)

/-- The string `"../"` repeated `n` times. -/
def dotsFor : Nat → Str
  | 0 => []
  | n + 1 => '.' :: '.' :: '/' :: dotsFor n

/-- Last element of a list of components (`[]` when empty). -/
def lastComp : List Str → Str
  | [] => []
  | [x] => x
  | _ :: y :: xs => lastComp (y :: xs)

/-- All but the last component. -/
def dropLastComp : List Str → List Str
  | [] => []
  | [_] => []
  | x :: y :: xs => x :: dropLastComp (y :: xs)

-- ### Basic lemmas about the helpers

theorem splitOnCh_ne_nil (c : Char) : ∀ s : Str, splitOnCh c s ≠ []
  | [] => by simp [splitOnCh]
  | ch :: rest => by
    simp only [splitOnCh]
    split <;> simp

theorem splitOnCh_append_cons (c : Char) (b : Str) :
    ∀ a : Str, splitOnCh c (a ++ c :: b) = splitOnCh c a ++ splitOnCh c b
  | [] => by simp [splitOnCh]
  | ch :: rest => by
    have ih := splitOnCh_append_cons c b rest
    by_cases h : ch = c
    · simp only [List.cons_append, splitOnCh, if_pos h, List.append_eq, ih]
    · have hne := splitOnCh_ne_nil c rest
      obtain ⟨x, xs, hr⟩ : ∃ x xs, splitOnCh c rest = x :: xs := by
        cases hq : splitOnCh c rest with
        | nil => exact absurd hq hne
        | cons x xs => exact ⟨x, xs, rfl⟩
      simp only [List.cons_append, splitOnCh, if_neg h, List.append_eq]
      rw [ih, hr]
      simp

theorem splitFirst_of_not_mem {c : Char} : ∀ {s : Str}, c ∉ s →
    splitFirst c s = (s, none)
  | [], _ => rfl
  | ch :: rest, h => by
    have hch : ch ≠ c := fun hc => h (hc ▸ List.mem_cons_self ch rest)
    have hrest : c ∉ rest := fun hr => h (List.mem_cons_of_mem ch hr)
    simp [splitFirst, hch, splitFirst_of_not_mem hrest]

theorem splitFirst_append {c : Char} (l2 : Str) : ∀ {l1 : Str}, c ∉ l1 →
    splitFirst c (l1 ++ c :: l2) = (l1, some l2)
  | [], _ => by simp [splitFirst]
  | ch :: rest, h => by
    have hch : ch ≠ c := fun hc => h (hc ▸ List.mem_cons_self ch rest)
    have hrest : c ∉ rest := fun hr => h (List.mem_cons_of_mem ch hr)
    simp [splitFirst, hch, splitFirst_append l2 hrest]

/-- Every character of `s` is either the separator or belongs to one of the
components produced by `splitOnCh`. -/
theorem mem_splitOnCh_of_mem {c ch : Char} :
    ∀ {s : Str}, ch ∈ s → ch = c ∨ ∃ t ∈ splitOnCh c s, ch ∈ t
  | [], h => absurd h (List.not_mem_nil ch)
  | x :: rest, h => by
    by_cases hx : x = c
    · subst hx
      rcases List.mem_cons.mp h with h1 | h2
      · exact Or.inl h1
      · rcases mem_splitOnCh_of_mem h2 with h3 | ⟨t, ht, hcht⟩
        · exact Or.inl h3
        · exact Or.inr ⟨t, by simp [splitOnCh, ht], hcht⟩
    · have hne := splitOnCh_ne_nil c rest
      cases hr : splitOnCh c rest with
      | nil => exact absurd hr hne
      | cons y ys =>
        rcases List.mem_cons.mp h with h1 | h2
        · subst h1
          exact Or.inr ⟨ch :: y, by simp [splitOnCh, hx, hr], List.mem_cons_self _ _⟩
        · rcases mem_splitOnCh_of_mem h2 with h3 | ⟨t, ht, hcht⟩
          · exact Or.inl h3
          · rw [hr] at ht
            rcases List.mem_cons.mp ht with h4 | h5
            · exact Or.inr ⟨x :: y, by simp [splitOnCh, hx, hr],
                h4 ▸ List.mem_cons_of_mem x hcht⟩
            · exact Or.inr ⟨t, by simp [splitOnCh, hx, hr, h5], hcht⟩

-- ### The Address model
-- Modelled from the spec (§3, §4.1, §6): the implementation module
-- `pants/build_graph/address.py` is not among the provided sources; only its
-- test suite is.  All behaviour below is reconstructed from the spec's data
-- model and grammar, pinned down by the expectations in `address_test.py`.

/-- Characters that may appear in a path component: the separator `/` and the
spec-structure markers `:` and `#` are excluded. -/
def okPathChar (ch : Char) : Bool := ch ≠ '/' && ch ≠ ':' && ch ≠ '#'

/-- A legal path component: nonempty, not `.` or `..`, no banned characters. -/
def okComp (s : Str) : Bool :=
  !s.isEmpty && s ≠ ['.'] && s ≠ ['.', '.'] && s.all okPathChar

/-- Path-safety for a (possibly empty) directory or file path. -/
def okPath (p : Str) : Bool := p.isEmpty || (splitOnCh '/' p).all okComp

/-- A reserved build-declaration filename component (`BUILD` or `BUILD.*`). -/
def buildComp (s : Str) : Bool := s = str "BUILD" || leadsWith (str "BUILD.") s

/-- Path-safety for a `spec_path`: additionally no component may be the
reserved build-declaration filename. -/
def okSpecPath (p : Str) : Bool :=
  okPath p && (splitOnCh '/' p).all (fun s => !buildComp s)

/-- Characters banned in an explicit target name. -/
def okNameChar (ch : Char) : Bool :=
  ch ≠ '@' && ch ≠ '!' && ch ≠ '?' && ch ≠ '=' && ch ≠ '/' &&
  ch ≠ '#' && ch ≠ ':' && ch ≠ '\\'

/-- A legal explicit target name. -/
def okName (s : Str) : Bool := !s.isEmpty && s.all okNameChar

/-- Characters banned in a generated name (`/` and `.` are allowed so a
generated name can traverse directories). -/
def okGenChar (ch : Char) : Bool :=
  ch ≠ '@' && ch ≠ '!' && ch ≠ '?' && ch ≠ '=' && ch ≠ '#' && ch ≠ ':'

/-- A legal generated name. -/
def okGen (s : Str) : Bool := !s.isEmpty && s.all okGenChar

/-- A legal `relative_file_path`: a nonempty path all of whose components are
legal (the reserved build filename IS allowed here). -/
def okFilePath (f : Str) : Bool := !f.isEmpty && (splitOnCh '/' f).all okComp

deriving instance DecidableEq for Except

/-- Errors raised by the address layer. -/
inductive AddrErr : Type
  | invalidSpecPath : AddrErr
  | invalidTargetName : AddrErr
deriving DecidableEq

/-- Modelled from the spec: `AddressInput` — the unresolved parse result with
`path_component`, optional `target_component` and optional
`generated_component` (spec §3). -/
structure AddressInput where
  path_component : Str
  target_component : Option Str := none
  generated_component : Option Str := none
deriving DecidableEq

/-- Modelled from the spec: `Address` — immutable identifier with four
components (spec §3).  `target_name` is stored in normalized form: `none`
whenever the explicit name equals the default (the last component of
`spec_path`), so that structural equality is address equality. -/
structure Address where
  spec_path : Str
  target_name : Option Str := none
  generated_name : Option Str := none
  relative_file_path : Option Str := none
deriving DecidableEq

/-- Last path segment of a path (empty for the repository root). -/
def lastSeg (p : Str) : Str := lastComp (splitOnCh '/' p)

/-- Validity of the four components of an `Address` (spec §3 invariants):
path-safe `spec_path` without the reserved build filename, legal explicit
target/generated names, legal relative file path, `generated_name` and
`relative_file_path` mutually exclusive, and a root address must name its
target explicitly. -/
def validAddress (sp : Str) (tn gn rf : Option Str) : Bool :=
  okSpecPath sp &&
  (match tn with
   | none => !sp.isEmpty
   | some n => okName n) &&
  (match gn with
   | none => true
   | some g => okGen g) &&
  (match rf with
   | none => true
   | some f => okFilePath f) &&
  !(gn.isSome && rf.isSome)

/-- Modelled from the spec: the `Address` constructor.  Validates the
components (`InvalidSpecPath` / `InvalidTargetName`, spec §3/§7) and applies
the normalization invariant: an explicit `target_name` equal to the default
(the last component of `spec_path`) is stored as `none`. -/
def mkAddress (sp : Str) (tn gn rf : Option Str) : Except AddrErr Address :=
  if validAddress sp tn gn rf then
    .ok ⟨sp, if tn = some (lastSeg sp) then none else tn, gn, rf⟩
  else
    .error (if okSpecPath sp then .invalidTargetName else .invalidSpecPath)

/-- Effective target name: the stored explicit name, else the default. -/
def Address.targetName (a : Address) : Str :=
  match a.target_name with
  | none => lastSeg a.spec_path
  | some n => n

/-- A file-level (generated-from-file) address; such addresses are the
cycle-tolerant ones (spec §4.3, glossary). -/
def Address.isFileTarget (a : Address) : Bool := a.relative_file_path.isSome

/-- Rendering of an optional target component (`:` marker). -/
def optColon : Option Str → Str
  | none => []
  | some t => ':' :: t

/-- Rendering of an optional generated component (`#` marker). -/
def optHash : Option Str → Str
  | none => []
  | some g => '#' :: g

/-- The full file path of a file-level address: `spec_path` followed by the
relative file path. -/
def fileBase (a : Address) (f : Str) : Str :=
  if a.spec_path.isEmpty then f else a.spec_path ++ '/' :: f

/-- The owner reference rendered for a file-level address: for a file
directly in the owning directory, the explicit target name (if any);
for a file `d` directories deeper, `../` repeated `d` times followed by the
effective target name. -/
def fileTargetComp (a : Address) (f : Str) : Option Str :=
  if countCh '/' f = 0 then a.target_name
  else some (dotsFor (countCh '/' f) ++ a.targetName)

/-- Modelled from the spec: `Address.spec`, the canonical string rendering
(spec §4.1/§6): `dir`, `dir:name`, `dir#gen`, `dir:name#gen` for directory
addresses (with a leading `//` at the repository root), and
`dir/file`, `dir/file:owner`, `dir/sub/file:../owner` for file addresses,
one `../` per directory level between the file and its owning declaration. -/
def Address.spec (a : Address) : Str :=
  let pre : Str := if a.spec_path.isEmpty then ['/', '/'] else []
  match a.relative_file_path with
  | none => pre ++ a.spec_path ++ optColon a.target_name ++ optHash a.generated_name
  | some f => pre ++ fileBase a f ++ optColon (fileTargetComp a f)

/-- Modelled from the spec: the `AddressInput` corresponding to an `Address`
(the inverse image used by the round-trip contract, spec §8): directory
addresses keep their components; a file address contributes the full file
path as `path_component` and, when the file lives in a subdirectory, a
`../`-prefixed owner reference as `target_component`. -/
def addressInputFrom (a : Address) : AddressInput :=
  match a.relative_file_path with
  | none => ⟨a.spec_path, a.target_name, a.generated_name⟩
  | some f => ⟨fileBase a f, fileTargetComp a f, none⟩

/-- Does a raw path component begin with the root marker `//`? -/
def leadsRoot (s : Str) : Bool := leadsWith ['/', '/'] s

/-- Modelled from the spec: `AddressInput.parse` for absolute spec strings
(spec §4.1/§6): the `generated_component` is everything after `#`, the
`target_component` everything after `:` (before `#`), a leading `//` is the
root marker, and the remaining path component must be path-safe
(`InvalidSpecPath` otherwise).  Target/generated-name validity is checked
later, by `dir_to_address` / `file_to_address`. -/
def AddressInput.parse (s : Str) : Except AddrErr AddressInput :=
  let p1 := splitFirst '#' s
  let p2 := splitFirst ':' p1.1
  let path := if leadsRoot p2.1 then p2.1.drop 2 else p2.1
  if okPath path then .ok ⟨path, p2.2, p1.2⟩ else .error .invalidSpecPath

example : AddressInput.parse (str "a/b/c") = .ok ⟨str "a/b/c", none, none⟩ := by decide
example : AddressInput.parse (str "a/b/c:c#gen") =
    .ok ⟨str "a/b/c", some (str "c"), some (str "gen")⟩ := by decide
example : AddressInput.parse (str "//:c") = .ok ⟨[], some (str "c"), none⟩ := by decide
example : AddressInput.parse (str "a/b/c.txt:../tgt") =
    .ok ⟨str "a/b/c.txt", some (str "../tgt"), none⟩ := by decide
example : AddressInput.parse (str "..") = .error .invalidSpecPath := by decide
example : AddressInput.parse (str "a/:a") = .error .invalidSpecPath := by decide
example : AddressInput.parse (str "/a") = .error .invalidSpecPath := by decide
example : AddressInput.parse (str "///a") = .error .invalidSpecPath := by decide
example : mkAddress (str "a/b/c") (some (str "c")) none none =
    .ok ⟨str "a/b/c", none, none, none⟩ := by decide
example : mkAddress (str "a/b/BUILD") none none none = .error .invalidSpecPath := by decide
example : mkAddress (str "a/b") none none (some (str "BUILD")) =
    .ok ⟨str "a/b", none, none, some (str "BUILD")⟩ := by decide
example : Address.spec ⟨str "a/b", none, none, some (str "subdir/dir2/f.txt")⟩ =
    str "a/b/subdir/dir2/f.txt:../../b" := by decide
example : Address.spec ⟨[], some (str "root"), some (str "generated"), none⟩ =
    str "//:root#generated" := by decide

-- ### Lemmas towards the parse/spec round trip

theorem not_mem_of_all {l : Str} {q : Char → Bool} (h : l.all q = true)
    {ch : Char} (hch : q ch = false) : ch ∉ l := by
  intro hm
  have := List.all_eq_true.mp h ch hm
  rw [hch] at this
  exact Bool.noConfusion this

theorem all_of_okComp {t : Str} (h : okComp t = true) : t.all okPathChar = true := by
  unfold okComp at h
  simp only [Bool.and_eq_true] at h
  exact h.2

theorem okComp_of_okPath {p : Str} (h : okPath p = true) (hne : p ≠ [])
    {t : Str} (ht : t ∈ splitOnCh '/' p) : okComp t = true := by
  unfold okPath at h
  cases p with
  | nil => exact absurd rfl hne
  | cons x r =>
    simp only [List.isEmpty_cons, Bool.false_or] at h
    exact List.all_eq_true.mp h t ht

theorem okPath_not_mem {p : Str} (h : okPath p = true) {ch : Char}
    (h1 : ch ≠ '/') (h2 : okPathChar ch = false) : ch ∉ p := by
  intro hm
  rcases mem_splitOnCh_of_mem (c := '/') hm with h3 | ⟨t, ht, hcht⟩
  · exact h1 h3
  · have hok := okComp_of_okPath h (List.ne_nil_of_mem hm) ht
    exact not_mem_of_all (all_of_okComp hok) h2 hcht

theorem colon_not_mem_okPath {p : Str} (h : okPath p = true) : ':' ∉ p :=
  okPath_not_mem h (by decide) (by decide)

theorem hash_not_mem_okPath {p : Str} (h : okPath p = true) : '#' ∉ p :=
  okPath_not_mem h (by decide) (by decide)

theorem okPath_of_okSpecPath {p : Str} (h : okSpecPath p = true) : okPath p = true := by
  unfold okSpecPath at h
  simp only [Bool.and_eq_true] at h
  exact h.1

theorem okPath_of_okFilePath {f : Str} (h : okFilePath f = true) : okPath f = true := by
  unfold okFilePath at h
  unfold okPath
  simp only [Bool.and_eq_true] at h
  rw [h.2]
  simp

theorem okPath_head_ne_slash {p : Str} {c : Char} {r : Str}
    (h : okPath p = true) (hp : p = c :: r) : c ≠ '/' := by
  subst hp
  intro hc
  subst hc
  unfold okPath at h
  simp only [List.isEmpty_cons, Bool.false_or] at h
  have hsplit : splitOnCh '/' ('/' :: r) = [] :: splitOnCh '/' r := by
    simp [splitOnCh]
  rw [hsplit, List.all_cons] at h
  simp only [Bool.and_eq_true] at h
  have : okComp ([] : Str) = true := h.1
  exact Bool.noConfusion this

theorem leadsRoot_cons_false {c : Char} (h : c ≠ '/') (r : Str) :
    leadsRoot (c :: r) = false := by
  have hd : (decide (('/' : Char) = c)) = false := decide_eq_false fun hh => h hh.symm
  simp [leadsRoot, leadsWith, hd]

theorem leadsRoot_root (p : Str) : leadsRoot ('/' :: '/' :: p) = true := by
  simp [leadsRoot, leadsWith]

theorem lastComp_mem : ∀ {l : List Str}, l ≠ [] → lastComp l ∈ l
  | [], h => absurd rfl h
  | [x], _ => by simp [lastComp]
  | x :: y :: xs, _ => by
    have ih := lastComp_mem (l := y :: xs) (by simp)
    simp only [lastComp]
    exact List.mem_cons_of_mem x ih

theorem mem_dotsFor {ch : Char} : ∀ {d : Nat}, ch ∈ dotsFor d → ch = '.' ∨ ch = '/'
  | 0, h => absurd h (List.not_mem_nil ch)
  | d + 1, h => by
    simp only [dotsFor, List.mem_cons] at h
    rcases h with h | h | h | h
    · exact Or.inl h
    · exact Or.inl h
    · exact Or.inr h
    · exact mem_dotsFor h

theorem hash_not_mem_dotsFor (d : Nat) : '#' ∉ dotsFor d := by
  intro hm
  rcases mem_dotsFor hm with h | h <;> exact absurd h (by decide)

theorem hash_not_mem_optColon {tc : Option Str}
    (htc : ∀ t, tc = some t → '#' ∉ t) : '#' ∉ optColon tc := by
  cases tc with
  | none => simp [optColon]
  | some t =>
    intro hm
    rcases List.mem_cons.mp hm with h | h
    · exact absurd h (by decide)
    · exact htc t rfl h

/-- Parsing a non-root spec string assembled from a path-safe nonempty path,
an optional target component and an optional generated component recovers
exactly those pieces. -/
theorem parse_assembled {p : Str} (hp : okPath p = true) (hne : p ≠ [])
    (tc gc : Option Str) (htc : ∀ t, tc = some t → '#' ∉ t) :
    AddressInput.parse (p ++ optColon tc ++ optHash gc) =
      .ok ⟨p, tc, gc⟩ := by
  have hhashp : '#' ∉ p := hash_not_mem_okPath hp
  have hcolonp : ':' ∉ p := colon_not_mem_okPath hp
  have hhash1 : '#' ∉ p ++ optColon tc := by
    intro hm
    rcases List.mem_append.mp hm with h | h
    · exact hhashp h
    · exact hash_not_mem_optColon htc h
  have h1 : splitFirst '#' (p ++ optColon tc ++ optHash gc) =
      (p ++ optColon tc, gc) := by
    cases gc with
    | none =>
      simp only [optHash, List.append_nil]
      exact splitFirst_of_not_mem hhash1
    | some g =>
      simp only [optHash]
      exact splitFirst_append g hhash1
  have h2 : splitFirst ':' (p ++ optColon tc) = (p, tc) := by
    cases tc with
    | none =>
      simp only [optColon, List.append_nil]
      exact splitFirst_of_not_mem hcolonp
    | some t =>
      simp only [optColon]
      exact splitFirst_append t hcolonp
  obtain ⟨c, r, hpc⟩ : ∃ c r, p = c :: r := by
    cases p with
    | nil => exact absurd rfl hne
    | cons c r => exact ⟨c, r, rfl⟩
  have hc : c ≠ '/' := okPath_head_ne_slash hp hpc
  have hlr : leadsRoot p = false := hpc ▸ leadsRoot_cons_false hc r
  unfold AddressInput.parse
  rw [h1]
  simp only
  rw [h2]
  simp [hlr, hp]

/-- Parsing a root-marked spec string (`//` followed by a path-safe, possibly
empty path, an optional target component and an optional generated
component) recovers exactly those pieces. -/
theorem parse_assembled_root {p : Str} (hp : okPath p = true)
    (tc gc : Option Str) (htc : ∀ t, tc = some t → '#' ∉ t) :
    AddressInput.parse (['/', '/'] ++ p ++ optColon tc ++ optHash gc) =
      .ok ⟨p, tc, gc⟩ := by
  have hhashp : '#' ∉ p := hash_not_mem_okPath hp
  have hcolonp : ':' ∉ p := colon_not_mem_okPath hp
  have hhash1 : '#' ∉ ['/', '/'] ++ p ++ optColon tc := by
    intro hm
    rcases List.mem_append.mp hm with h | h
    · rcases List.mem_append.mp h with h | h
      · rcases List.mem_cons.mp h with h | h
        · exact absurd h (by decide)
        · rcases List.mem_cons.mp h with h | h
          · exact absurd h (by decide)
          · exact absurd h (List.not_mem_nil _)
      · exact hhashp h
    · exact hash_not_mem_optColon htc h
  have hcolon1 : ':' ∉ ['/', '/'] ++ p := by
    intro hm
    rcases List.mem_append.mp hm with h | h
    · rcases List.mem_cons.mp h with h | h
      · exact absurd h (by decide)
      · rcases List.mem_cons.mp h with h | h
        · exact absurd h (by decide)
        · exact absurd h (List.not_mem_nil _)
    · exact hcolonp h
  have h1 : splitFirst '#' (['/', '/'] ++ p ++ optColon tc ++ optHash gc) =
      (['/', '/'] ++ p ++ optColon tc, gc) := by
    cases gc with
    | none =>
      simp only [optHash, List.append_nil]
      exact splitFirst_of_not_mem hhash1
    | some g =>
      simp only [optHash]
      exact splitFirst_append g hhash1
  have h2 : splitFirst ':' (['/', '/'] ++ p ++ optColon tc) =
      (['/', '/'] ++ p, tc) := by
    cases tc with
    | none =>
      simp only [optColon, List.append_nil]
      exact splitFirst_of_not_mem hcolon1
    | some t =>
      simp only [optColon]
      exact splitFirst_append t hcolon1
  have hlr : leadsRoot (['/', '/'] ++ p) = true := leadsRoot_root p
  unfold AddressInput.parse
  rw [h1]
  simp only
  rw [h2]
  simp [leadsRoot_root, hp]

theorem all_comps_of_okPath {p : Str} (h : okPath p = true) (hne : p ≠ []) :
    (splitOnCh '/' p).all okComp = true := by
  unfold okPath at h
  cases p with
  | nil => exact absurd rfl hne
  | cons x r => simpa using h

theorem all_comps_of_okFilePath {f : Str} (h : okFilePath f = true) :
    (splitOnCh '/' f).all okComp = true := by
  unfold okFilePath at h
  simp only [Bool.and_eq_true] at h
  exact h.2

theorem okFilePath_ne_nil {f : Str} (h : okFilePath f = true) : f ≠ [] := by
  unfold okFilePath at h
  simp only [Bool.and_eq_true] at h
  intro hf
  subst hf
  exact Bool.noConfusion h.1

theorem okPath_append_file {p f : Str} (hp : okPath p = true) (hne : p ≠ [])
    (hf : okFilePath f = true) : okPath (p ++ '/' :: f) = true := by
  unfold okPath
  rw [splitOnCh_append_cons '/' f p, List.all_append,
    all_comps_of_okPath hp hne, all_comps_of_okFilePath hf]
  simp

theorem hash_not_mem_lastSeg {p : Str} (h : okPath p = true) (hne : p ≠ []) :
    '#' ∉ lastSeg p := by
  have hmem : lastSeg p ∈ splitOnCh '/' p :=
    lastComp_mem (splitOnCh_ne_nil '/' p)
  have hok := okComp_of_okPath h hne hmem
  exact not_mem_of_all (all_of_okComp hok) (by decide)

theorem hash_not_mem_okName {n : Str} (h : okName n = true) : '#' ∉ n := by
  unfold okName at h
  simp only [Bool.and_eq_true] at h
  exact not_mem_of_all h.2 (by decide)

theorem okName_ne_nil {n : Str} (h : okName n = true) : n ≠ [] := by
  unfold okName at h
  simp only [Bool.and_eq_true] at h
  intro hn
  subst hn
  exact Bool.noConfusion h.1

/-- C1 (round trip): parsing the canonical spec rendering of any legally
constructible `Address` recovers exactly the `AddressInput` corresponding to
that address (same path, target and generated components), covering plain
directory, generated-name and file-relative forms including multi-level
`../` owner references. -/
theorem address_spec_parse_roundtrip (sp : Str) (tn gn rf : Option Str)
    (a : Address) (h : mkAddress sp tn gn rf = .ok a) :
    AddressInput.parse a.spec = .ok (addressInputFrom a) := by
  unfold mkAddress at h
  by_cases hv : validAddress sp tn gn rf = true
  · rw [if_pos hv] at h
    injection h with h
    unfold validAddress at hv
    simp only [Bool.and_eq_true] at hv
    obtain ⟨⟨⟨⟨hspec, htnv⟩, hgnv⟩, hrfv⟩, hboth⟩ := hv
    have hsp : okPath sp = true := okPath_of_okSpecPath hspec
    have htn' : ∀ n, (if tn = some (lastSeg sp) then none else tn) = some n →
        okName n = true := by
      intro n hn
      by_cases hif : tn = some (lastSeg sp)
      · rw [if_pos hif] at hn
        exact Option.noConfusion hn
      · rw [if_neg hif] at hn
        rw [hn] at htnv
        exact htnv
    have hroot' : sp = [] → (if tn = some (lastSeg sp) then none else tn) ≠ none := by
      intro hsp0
      subst hsp0
      cases tn with
      | none => simp at htnv
      | some n =>
        have hokn : okName n = true := by simpa using htnv
        have hnn := okName_ne_nil hokn
        have hif : ¬(some n = some (lastSeg ([] : Str))) := by
          intro hc
          have hls : lastSeg ([] : Str) = [] := rfl
          exact hnn (hls ▸ Option.some.inj hc)
        rw [if_neg hif]
        exact Option.noConfusion
    generalize hgen : (if tn = some (lastSeg sp) then none else tn) = tn2 at h htn' hroot'
    subst h
    cases rf with
    | none =>
      cases sp with
      | nil =>
        cases tn2 with
        | none => exact absurd rfl (hroot' rfl)
        | some n =>
          have hok := htn' n rfl
          have hres := parse_assembled_root (p := []) (by decide) (some n) gn
            (fun t ht => by
              have hnt : n = t := Option.some.inj ht
              subst hnt
              exact hash_not_mem_okName hok)
          simp only [Address.spec, addressInputFrom]
          simpa using hres
      | cons c r =>
        have hres := parse_assembled hsp (by simp) tn2 gn
          (fun t ht => hash_not_mem_okName (htn' t ht))
        simp only [Address.spec, addressInputFrom]
        simpa using hres
    | some f =>
      have hfok : okFilePath f = true := hrfv
      have hfile_tc : ∀ t, fileTargetComp ⟨sp, tn2, gn, some f⟩ f = some t →
          '#' ∉ t := by
        intro t ht
        unfold fileTargetComp at ht
        by_cases hd : countCh '/' f = 0
        · rw [if_pos hd] at ht
          exact hash_not_mem_okName (htn' t ht)
        · rw [if_neg hd] at ht
          have ht' := Option.some.inj ht
          subst ht'
          intro hm
          rcases List.mem_append.mp hm with hm | hm
          · exact hash_not_mem_dotsFor _ hm
          · cases htnc : tn2 with
            | none =>
              rw [htnc] at hm
              simp only [Address.targetName] at hm
              cases hspc : sp with
              | nil => exact absurd htnc (hroot' hspc)
              | cons c r =>
                rw [hspc] at hm hsp
                exact hash_not_mem_lastSeg hsp (by simp) hm
            | some n =>
              rw [htnc] at hm
              simp only [Address.targetName] at hm
              exact hash_not_mem_okName (htn' n htnc) hm
      cases sp with
      | nil =>
        have hfp : okPath f = true := okPath_of_okFilePath hfok
        have hbase : fileBase ⟨[], tn2, gn, some f⟩ f = f := by
          simp [fileBase]
        have hres := parse_assembled_root hfp
          (fileTargetComp ⟨[], tn2, gn, some f⟩ f) none hfile_tc
        simp only [Address.spec, addressInputFrom, hbase]
        simpa [optHash] using hres
      | cons c r =>
        have hbase : fileBase ⟨c :: r, tn2, gn, some f⟩ f = (c :: r) ++ '/' :: f := by
          simp [fileBase]
        have hfp : okPath ((c :: r) ++ '/' :: f) = true :=
          okPath_append_file hsp (by simp) hfok
        have hres := parse_assembled hfp (by simp)
          (fileTargetComp ⟨c :: r, tn2, gn, some f⟩ f) none hfile_tc
        simp only [Address.spec, addressInputFrom, hbase]
        simpa [optHash] using hres
  · rw [if_neg hv] at h
    exact Except.noConfusion h

/-- Witness for the round-trip theorem at a concrete constructible address
(a file in a subdirectory with an explicit owner). -/
theorem address_spec_parse_roundtrip_witness :
    mkAddress (str "a/b") (some (str "tgt")) none (some (str "sub/f.txt")) =
      .ok ⟨str "a/b", some (str "tgt"), none, some (str "sub/f.txt")⟩ ∧
    AddressInput.parse
        (Address.spec ⟨str "a/b", some (str "tgt"), none, some (str "sub/f.txt")⟩) =
      .ok (addressInputFrom ⟨str "a/b", some (str "tgt"), none, some (str "sub/f.txt")⟩) :=
  ⟨by decide, address_spec_parse_roundtrip (str "a/b") (some (str "tgt")) none
    (some (str "sub/f.txt")) _ (by decide)⟩

-- ### dir_to_address / file_to_address

/-- Modelled from the spec: `AddressInput.dir_to_address` binds the input as a
directory-target address (spec §4.1); name validation happens here. -/
def AddressInput.dir_to_address (ai : AddressInput) : Except AddrErr Address :=
  mkAddress ai.path_component ai.target_component ai.generated_component none

/-- Strip the leading `../` markers off a target component, counting them. -/
def stripDotDots : Str → Nat × Str
  | '.' :: '.' :: '/' :: rest =>
    let p := stripDotDots rest
    (p.1 + 1, p.2)
  | s => (0, s)

/-- Modelled from the spec: `AddressInput.file_to_address` binds the input as
a file-level address (spec §4.1): the file's directory owns it unless a
target component is given; each leading `../` of the target component strips
one trailing segment off the file's directory; a top-level file without an
explicit owner is illegal. -/
def AddressInput.file_to_address (ai : AddressInput) : Except AddrErr Address :=
  let comps := splitOnCh '/' ai.path_component
  let dirComps := dropLastComp comps
  let fname := lastComp comps
  match ai.target_component with
  | none =>
    match dirComps with
    | [] => .error .invalidTargetName
    | _ :: _ => mkAddress (joinCh '/' dirComps) none none (some fname)
  | some tc =>
    let p := stripDotDots tc
    if dirComps.length < p.1 then .error .invalidTargetName
    else
      mkAddress (joinCh '/' (dirComps.take (dirComps.length - p.1)))
        (some p.2) none
        (some (joinCh '/' (dirComps.drop (dirComps.length - p.1) ++ [fname])))

example : AddressInput.file_to_address ⟨str "a/b/c.txt", none, none⟩ =
    .ok ⟨str "a/b", none, none, some (str "c.txt")⟩ := by decide
example : AddressInput.file_to_address ⟨str "a/b/c.txt", some (str "original"), none⟩ =
    .ok ⟨str "a/b", some (str "original"), none, some (str "c.txt")⟩ := by decide
example : AddressInput.file_to_address ⟨str "a/b/c.txt", some (str "../original"), none⟩ =
    .ok ⟨str "a", some (str "original"), none, some (str "b/c.txt")⟩ := by decide
example : AddressInput.file_to_address ⟨str "a/b/c.txt", some (str "../../original"), none⟩ =
    .ok ⟨[], some (str "original"), none, some (str "a/b/c.txt")⟩ := by decide
example : AddressInput.file_to_address ⟨str "f.txt", some (str "subdir/tgt"), none⟩ =
    .error .invalidTargetName := by decide
example : AddressInput.file_to_address ⟨str "f.txt", some (str "subdir../tgt"), none⟩ =
    .error .invalidTargetName := by decide
example : AddressInput.file_to_address ⟨str "a/f.txt", some (str "../a/original"), none⟩ =
    .error .invalidTargetName := by decide
example : AddressInput.file_to_address ⟨str "f.txt", none, none⟩ =
    .error .invalidTargetName := by decide
example : AddressInput.file_to_address ⟨str "f.txt", some (str "tgt"), none⟩ =
    .ok ⟨[], some (str "tgt"), none, some (str "f.txt")⟩ := by decide
example : AddressInput.dir_to_address ⟨[], none, none⟩ = .error .invalidTargetName := by
  decide
example : AddressInput.dir_to_address ⟨str "a", some (str "b"), some (str "gen")⟩ =
    .ok ⟨str "a", some (str "b"), some (str "gen"), none⟩ := by decide

-- ### Lemmas for file_to_address

theorem not_sep_mem_splitOnCh (c : Char) :
    ∀ (s : Str) {t : Str}, t ∈ splitOnCh c s → c ∉ t
  | [], t, ht => by
    simp only [splitOnCh, List.mem_singleton] at ht
    subst ht
    exact List.not_mem_nil c
  | ch :: rest, t, ht => by
    have hne := splitOnCh_ne_nil c rest
    by_cases hch : ch = c
    · simp only [splitOnCh, if_pos hch] at ht
      rcases List.mem_cons.mp ht with h | h
      · subst h
        exact List.not_mem_nil c
      · exact not_sep_mem_splitOnCh c rest h
    · obtain ⟨y, ys, hr⟩ : ∃ y ys, splitOnCh c rest = y :: ys := by
        cases hq : splitOnCh c rest with
        | nil => exact absurd hq hne
        | cons y ys => exact ⟨y, ys, rfl⟩
      have hy : y ∈ splitOnCh c rest := by
        rw [hr]
        exact List.mem_cons_self y ys
      have hs : splitOnCh c (ch :: rest) = (ch :: y) :: ys := by
        simp [splitOnCh, hch, hr]
      rw [hs] at ht
      rcases List.mem_cons.mp ht with h | h
      · subst h
        intro hm
        rcases List.mem_cons.mp hm with h1 | h1
        · exact hch h1.symm
        · exact not_sep_mem_splitOnCh c rest hy h1
      · have ht' : t ∈ splitOnCh c rest := by
          rw [hr]
          exact List.mem_cons_of_mem y h
        exact not_sep_mem_splitOnCh c rest ht'

theorem splitOnCh_single {c : Char} {x : Str} (h : c ∉ x) :
    splitOnCh c x = [x] := by
  induction x with
  | nil => rfl
  | cons ch rest ih =>
    have hch : ch ≠ c := fun hc => h (hc ▸ List.mem_cons_self ch rest)
    have hrest : c ∉ rest := fun hr => h (List.mem_cons_of_mem ch hr)
    simp [splitOnCh, hch, ih hrest]

theorem splitOnCh_joinCh {c : Char} :
    ∀ {l : List Str}, l ≠ [] → (∀ t ∈ l, c ∉ t) →
      splitOnCh c (joinCh c l) = l
  | [], h, _ => absurd rfl h
  | [x], _, hall => by
    simp only [joinCh]
    exact splitOnCh_single (hall x (List.mem_singleton_self x))
  | x :: y :: xs, _, hall => by
    have ih := splitOnCh_joinCh (l := y :: xs) (by simp)
      (fun t ht => hall t (List.mem_cons_of_mem x ht))
    simp only [joinCh]
    rw [splitOnCh_append_cons, ih,
      splitOnCh_single (hall x (List.mem_cons_self x (y :: xs)))]
    rfl

theorem stripDotDots_no_slash {s : Str} (h : '/' ∉ s) : stripDotDots s = (0, s) := by
  unfold stripDotDots
  split
  · rename_i rest
    exact absurd
      (List.mem_cons_of_mem _ (List.mem_cons_of_mem _ (List.mem_cons_self _ _))) h
  · rfl

theorem stripDotDots_dotsFor {s : Str} (h : '/' ∉ s) :
    ∀ k : Nat, stripDotDots (dotsFor k ++ s) = (k, s)
  | 0 => by
    simpa [dotsFor] using stripDotDots_no_slash h
  | k + 1 => by
    have ih := stripDotDots_dotsFor h k
    simp [dotsFor, stripDotDots, ih]

theorem mkAddress_ok_inv {sp : Str} {tn gn rf : Option Str} {a : Address}
    (h : mkAddress sp tn gn rf = .ok a) :
    validAddress sp tn gn rf = true ∧
    a = ⟨sp, if tn = some (lastSeg sp) then none else tn, gn, rf⟩ := by
  unfold mkAddress at h
  by_cases hv : validAddress sp tn gn rf = true
  · rw [if_pos hv] at h
    injection h with h
    exact ⟨hv, h.symm⟩
  · rw [if_neg hv] at h
    exact Except.noConfusion h

/-- The fields of a successfully constructed address with an explicit target
name: the name survives as the effective target name even when stored in
normalized form. -/
theorem mkAddress_ok_fields {sp : Str} {n : Str} {gn rf : Option Str} {a : Address}
    (h : mkAddress sp (some n) gn rf = .ok a) :
    a.spec_path = sp ∧ a.targetName = n ∧ a.generated_name = gn ∧
      a.relative_file_path = rf := by
  obtain ⟨hv, ha⟩ := mkAddress_ok_inv h
  subst ha
  refine ⟨rfl, ?_, rfl, rfl⟩
  by_cases hif : (some n : Option Str) = some (lastSeg sp)
  · rw [if_pos hif]
    unfold Address.targetName
    simp only
    exact (Option.some.inj hif).symm
  · rw [if_neg hif]
    rfl

theorem mkAddress_ok_fields_none {sp : Str} {gn rf : Option Str} {a : Address}
    (h : mkAddress sp none gn rf = .ok a) :
    a.spec_path = sp ∧ a.targetName = lastSeg sp ∧ a.generated_name = gn ∧
      a.relative_file_path = rf := by
  obtain ⟨hv, ha⟩ := mkAddress_ok_inv h
  subst ha
  refine ⟨rfl, ?_, rfl, rfl⟩
  have : ((none : Option Str) = some (lastSeg sp)) = False := by simp
  rw [if_neg (by simp)]
  rfl

theorem mem_of_mem_dropLastComp :
    ∀ {l : List Str} {t : Str}, t ∈ dropLastComp l → t ∈ l
  | [], t, ht => absurd ht (List.not_mem_nil t)
  | [x], t, ht => absurd ht (List.not_mem_nil t)
  | x :: y :: xs, t, ht => by
    simp only [dropLastComp] at ht
    rcases List.mem_cons.mp ht with h | h
    · exact h ▸ List.mem_cons_self x (y :: xs)
    · exact List.mem_cons_of_mem x (mem_of_mem_dropLastComp h)

theorem no_slash_in_dirComps {p : Str} {t : Str}
    (ht : t ∈ dropLastComp (splitOnCh '/' p)) : '/' ∉ t :=
  not_sep_mem_splitOnCh '/' p (mem_of_mem_dropLastComp ht)

/-- C8 (file-address owner binding): (1) with no explicit target component,
the effective owning target name is the last segment of the file's containing
directory, which becomes `spec_path`; (2) each leading `../` of an explicit
target component strips one trailing segment from the file's directory
before the remainder names the owner; (3) a top-level file (no directory)
with no explicit target component fails with `InvalidTargetName`. -/
theorem file_to_address_owner_binding :
    (∀ p a, AddressInput.file_to_address ⟨p, none, none⟩ = .ok a →
      a.spec_path = joinCh '/' (dropLastComp (splitOnCh '/' p)) ∧
      a.targetName = lastComp (dropLastComp (splitOnCh '/' p)) ∧
      a.relative_file_path = some (lastComp (splitOnCh '/' p))) ∧
    (∀ p k name a, '/' ∉ name →
      AddressInput.file_to_address ⟨p, some (dotsFor k ++ name), none⟩ = .ok a →
      k ≤ (dropLastComp (splitOnCh '/' p)).length ∧
      a.spec_path = joinCh '/' ((dropLastComp (splitOnCh '/' p)).take
        ((dropLastComp (splitOnCh '/' p)).length - k)) ∧
      a.targetName = name) ∧
    (∀ f, '/' ∉ f →
      AddressInput.file_to_address ⟨f, none, none⟩ = .error .invalidTargetName) := by
  refine ⟨?_, ?_, ?_⟩
  · intro p a h
    simp only [AddressInput.file_to_address] at h
    split at h
    · exact Except.noConfusion h
    · rename_i d ds heq
      obtain ⟨h1, h2, _, h4⟩ := mkAddress_ok_fields_none h
      rw [heq]
      refine ⟨h1 ▸ (by rw [heq]), ?_, by rw [h4]⟩
      rw [h2]
      unfold lastSeg
      rw [heq] at h1 ⊢
      rw [splitOnCh_joinCh (by simp)
        (fun t ht => no_slash_in_dirComps (p := p) (heq ▸ ht))]
  · intro p k name a hname h
    simp only [AddressInput.file_to_address, stripDotDots_dotsFor hname] at h
    split at h
    · exact Except.noConfusion h
    · rename_i hnotlt
      obtain ⟨h1, h2, _, _⟩ := mkAddress_ok_fields h
      exact ⟨Nat.le_of_not_lt hnotlt, h1, h2⟩
  · intro f hf
    simp [AddressInput.file_to_address, splitOnCh_single hf, dropLastComp]

/-- Witness for the owner-binding theorem at concrete inputs: the implied
owner of `a/b/c.txt` is `b`; a single `../` on `a/b/c.txt` strips `b`; a
top-level `f.txt` without an owner is rejected. -/
theorem file_to_address_owner_binding_witness :
    (Address.targetName ⟨str "a/b", none, none, some (str "c.txt")⟩ =
      lastComp (dropLastComp (splitOnCh '/' (str "a/b/c.txt")))) ∧
    (Address.spec_path ⟨str "a", some (str "original"), none, some (str "b/c.txt")⟩ =
      joinCh '/' ((dropLastComp (splitOnCh '/' (str "a/b/c.txt"))).take
        ((dropLastComp (splitOnCh '/' (str "a/b/c.txt"))).length - 1))) ∧
    AddressInput.file_to_address ⟨str "f.txt", none, none⟩ =
      .error .invalidTargetName :=
  ⟨(file_to_address_owner_binding.1 (str "a/b/c.txt")
      ⟨str "a/b", none, none, some (str "c.txt")⟩ (by decide)).2.1,
   (file_to_address_owner_binding.2.1 (str "a/b/c.txt") 1 (str "original")
      ⟨str "a", some (str "original"), none, some (str "b/c.txt")⟩
      (by decide) (by decide)).2.1,
   file_to_address_owner_binding.2.2 (str "f.txt") (by decide)⟩

-- ### path_safe_spec

/-- Replace the path separator by `.` (the per-component sanitization used by
`path_safe_spec`). -/
def sanCh (ch : Char) : Char := if ch = '/' then '.' else ch

/-- Sanitize a path for use as part of a filesystem-safe key. -/
def sanitize (s : Str) : Str := s.map sanCh

/-- Modelled from the spec: `Address.path_safe_spec`, the filesystem-safe
rendering (spec §4.1), reconstructed from `test_address_spec`: sanitized
`spec_path`, then for a file address `.` plus the sanitized file path and
the owner joined with `.` (file directly in the directory, explicit name
only) or with `@` repeated once per folded directory level (effective name
always); for a directory address the explicit target name joined with `.`
and `@` plus the sanitized generated name. -/
def Address.path_safe_spec (a : Address) : Str :=
  match a.relative_file_path with
  | some f =>
    let d := countCh '/' f
    let targetPortion : Str :=
      if d = 0 then
        match a.target_name with
        | none => []
        | some n => '.' :: n
      else List.replicate d '@' ++ a.targetName
    sanitize a.spec_path ++ '.' :: sanitize f ++ targetPortion
  | none =>
    let targetPortion : Str := match a.target_name with
      | none => []
      | some n => '.' :: n
    let genPortion : Str := match a.generated_name with
      | none => []
      | some g => '@' :: sanitize g
    sanitize a.spec_path ++ targetPortion ++ genPortion

example : Address.path_safe_spec ⟨str "a/b", none, none, none⟩ = str "a.b" := by decide
example : Address.path_safe_spec ⟨str "a/b", some (str "c"), none, none⟩ =
    str "a.b.c" := by decide
example : Address.path_safe_spec ⟨[], some (str "root"), none, none⟩ =
    str ".root" := by decide
example : Address.path_safe_spec ⟨str "a/b", none, some (str "generated"), none⟩ =
    str "a.b@generated" := by decide
example : Address.path_safe_spec ⟨str "a/b", none, some (str "generated/f.ext"), none⟩ =
    str "a.b@generated.f.ext" := by decide
example : Address.path_safe_spec
    ⟨str "a/b", some (str "generator"), some (str "generated"), none⟩ =
    str "a.b.generator@generated" := by decide
example : Address.path_safe_spec
    ⟨str "a/b", some (str "generator"), some (str "generated/f.ext"), none⟩ =
    str "a.b.generator@generated.f.ext" := by decide
example : Address.path_safe_spec ⟨[], some (str "root"), some (str "generated"), none⟩ =
    str ".root@generated" := by decide
example : Address.path_safe_spec ⟨str "a/b", some (str "c"), none, some (str "c.txt")⟩ =
    str "a.b.c.txt.c" := by decide
example : Address.path_safe_spec ⟨[], some (str "root"), none, some (str "root.txt")⟩ =
    str ".root.txt.root" := by decide
example : Address.path_safe_spec
    ⟨str "a/b", some (str "original"), none, some (str "subdir/c.txt")⟩ =
    str "a.b.subdir.c.txt@original" := by decide
example : Address.path_safe_spec ⟨str "a/b", none, none, some (str "c.txt")⟩ =
    str "a.b.c.txt" := by decide
example : Address.path_safe_spec ⟨str "a/b", none, none, some (str "subdir/f.txt")⟩ =
    str "a.b.subdir.f.txt@b" := by decide
example : Address.path_safe_spec ⟨str "a/b", none, none, some (str "subdir/dir2/f.txt")⟩ =
    str "a.b.subdir.dir2.f.txt@@b" := by decide

/-- The rendering the spec's words describe for `path_safe_spec`: the `spec`
string with `/` → `.`, `:` → `.` and `#` → `@` substituted character by
character. -/
def psSub (ch : Char) : Char :=
  if ch = '/' then '.' else if ch = ':' then '.' else if ch = '#' then '@' else ch

/-- The claim-side definition: plain character substitution on `spec`. -/
def pathSafeSpecNaive (a : Address) : Str := a.spec.map psSub

/-- C9 counterexample: for the root address `//:root` the plain substitution
yields `..root` while `path_safe_spec` is `.root` (the root marker `//` is
dropped, not substituted). -/
theorem path_safe_spec_not_substitution :
    Address.path_safe_spec ⟨[], some (str "root"), none, none⟩ ≠
      pathSafeSpecNaive ⟨[], some (str "root"), none, none⟩ := by decide

theorem psSub_eq_sanCh {ch : Char} (h1 : ch ≠ ':') (h2 : ch ≠ '#') :
    psSub ch = sanCh ch := by
  unfold psSub sanCh
  by_cases h : ch = '/'
  · simp [h]
  · simp [h, h1, h2]

theorem map_psSub_sanitize {s : Str} (h1 : ':' ∉ s) (h2 : '#' ∉ s) :
    s.map psSub = sanitize s :=
  List.map_congr_left fun _ch hch =>
    psSub_eq_sanCh (fun hc => h1 (hc ▸ hch)) (fun hc => h2 (hc ▸ hch))

theorem sanitize_self {s : Str} (h : '/' ∉ s) : sanitize s = s := by
  unfold sanitize
  have hcongr : s.map sanCh = s.map id :=
    List.map_congr_left fun ch hch => by
      have hcne : ch ≠ '/' := fun hc => h (hc ▸ hch)
      simp [sanCh, hcne]
  rw [hcongr, List.map_id]

theorem map_psSub_self {s : Str} (h0 : '/' ∉ s) (h1 : ':' ∉ s) (h2 : '#' ∉ s) :
    s.map psSub = s := by
  rw [map_psSub_sanitize h1 h2, sanitize_self h0]

theorem okName_facts {n : Str} (h : okName n = true) :
    '/' ∉ n ∧ ':' ∉ n ∧ '#' ∉ n := by
  unfold okName at h
  simp only [Bool.and_eq_true] at h
  exact ⟨not_mem_of_all h.2 (by decide), not_mem_of_all h.2 (by decide),
    not_mem_of_all h.2 (by decide)⟩

theorem okGen_facts {g : Str} (h : okGen g = true) : ':' ∉ g ∧ '#' ∉ g := by
  unfold okGen at h
  simp only [Bool.and_eq_true] at h
  exact ⟨not_mem_of_all h.2 (by decide), not_mem_of_all h.2 (by decide)⟩

theorem psSub_colon : psSub ':' = '.' := by decide

theorem psSub_hash : psSub '#' = '@' := by decide

theorem psSub_slash : psSub '/' = '.' := by decide

theorem path_safe_eq_naive_dir {sp : Str} {tn gn : Option Str}
    (hne : sp ≠ []) (hsp : okPath sp = true)
    (htn : ∀ n, tn = some n → okName n = true)
    (hgn : ∀ g, gn = some g → okGen g = true) :
    Address.path_safe_spec ⟨sp, tn, gn, none⟩ = pathSafeSpecNaive ⟨sp, tn, gn, none⟩ := by
  have hemp : sp.isEmpty = false := by
    cases sp with
    | nil => exact absurd rfl hne
    | cons _ _ => rfl
  have hspNaive : sp.map psSub = sanitize sp :=
    map_psSub_sanitize (colon_not_mem_okPath hsp) (hash_not_mem_okPath hsp)
  cases tn with
  | none =>
    cases gn with
    | none =>
      simp only [Address.path_safe_spec, pathSafeSpecNaive, Address.spec, hemp,
        Bool.false_eq_true, if_false, List.nil_append, optColon, optHash,
        List.append_nil, hspNaive]
    | some g =>
      obtain ⟨hga, hgb⟩ := okGen_facts (hgn g rfl)
      simp only [Address.path_safe_spec, pathSafeSpecNaive, Address.spec, hemp,
        Bool.false_eq_true, if_false, List.nil_append, optColon, optHash,
        List.append_nil, List.map_append, List.map_cons, hspNaive, psSub_hash,
        map_psSub_sanitize hga hgb]
  | some n =>
    obtain ⟨ha, hb, hc⟩ := okName_facts (htn n rfl)
    cases gn with
    | none =>
      simp only [Address.path_safe_spec, pathSafeSpecNaive, Address.spec, hemp,
        Bool.false_eq_true, if_false, List.nil_append, optColon, optHash,
        List.append_nil, List.map_append, List.map_cons, hspNaive, psSub_colon,
        map_psSub_self ha hb hc]
    | some g =>
      obtain ⟨hga, hgb⟩ := okGen_facts (hgn g rfl)
      simp only [Address.path_safe_spec, pathSafeSpecNaive, Address.spec, hemp,
        Bool.false_eq_true, if_false, List.nil_append, optColon, optHash,
        List.append_nil, List.map_append, List.map_cons, hspNaive, psSub_colon,
        psSub_hash, map_psSub_self ha hb hc, map_psSub_sanitize hga hgb]

theorem path_safe_eq_naive_file0 {sp f : Str} {tn : Option Str}
    (hne : sp ≠ []) (hsp : okPath sp = true)
    (htn : ∀ n, tn = some n → okName n = true)
    (hf : okFilePath f = true) (hd : countCh '/' f = 0) :
    Address.path_safe_spec ⟨sp, tn, none, some f⟩ =
      pathSafeSpecNaive ⟨sp, tn, none, some f⟩ := by
  have hemp : sp.isEmpty = false := by
    cases sp with
    | nil => exact absurd rfl hne
    | cons _ _ => rfl
  have hfp : okPath f = true := okPath_of_okFilePath hf
  have hspNaive : sp.map psSub = sanitize sp :=
    map_psSub_sanitize (colon_not_mem_okPath hsp) (hash_not_mem_okPath hsp)
  have hfNaive : f.map psSub = sanitize f :=
    map_psSub_sanitize (colon_not_mem_okPath hfp) (hash_not_mem_okPath hfp)
  have hbase : fileBase ⟨sp, tn, none, some f⟩ f = sp ++ '/' :: f := by
    simp [fileBase, hemp]
  have htcomp : fileTargetComp ⟨sp, tn, none, some f⟩ f = tn := by
    simp [fileTargetComp, hd]
  cases tn with
  | none =>
    simp only [Address.path_safe_spec, pathSafeSpecNaive, Address.spec, hemp,
      Bool.false_eq_true, if_false, List.nil_append, hbase, htcomp, hd, if_pos,
      optColon, List.append_nil, List.map_append, List.map_cons, hspNaive,
      psSub_slash, hfNaive]
  | some n =>
    obtain ⟨ha, hb, hc⟩ := okName_facts (htn n rfl)
    simp only [Address.path_safe_spec, pathSafeSpecNaive, Address.spec, hemp,
      Bool.false_eq_true, if_false, List.nil_append, hbase, htcomp, hd, if_pos,
      optColon, List.map_append, List.map_cons, hspNaive, psSub_slash,
      psSub_colon, hfNaive, map_psSub_self ha hb hc]

/-- C9 (amended): `path_safe_spec` agrees with the plain `/`→`.`, `:`→`.`,
`#`→`@` substitution on `spec` for every valid address with a nonempty
`spec_path` whose file part (if any) sits directly in the owning directory;
at the repository root the `//` marker is dropped rather than substituted,
a file `d` directories deeper renders its owner with `@` repeated `d` times
(the doubling applies to folded *file* path segments), and the
generated-name separator is a single `@` even when the generated name
itself traverses a directory boundary. -/
theorem path_safe_spec_characterization :
    (∀ sp tn gn a, mkAddress sp tn gn none = .ok a → sp ≠ [] →
      a.path_safe_spec = pathSafeSpecNaive a) ∧
    (∀ sp tn gn f a, mkAddress sp tn gn (some f) = .ok a → sp ≠ [] →
      countCh '/' f = 0 →
      a.path_safe_spec = pathSafeSpecNaive a) ∧
    Address.path_safe_spec ⟨[], some (str "root"), none, none⟩ = str ".root" ∧
    Address.path_safe_spec ⟨str "a/b", none, none, some (str "subdir/f.txt")⟩ =
      str "a.b.subdir.f.txt@b" ∧
    Address.path_safe_spec ⟨str "a/b", none, none, some (str "subdir/dir2/f.txt")⟩ =
      str "a.b.subdir.dir2.f.txt@@b" ∧
    Address.path_safe_spec ⟨str "a/b", none, some (str "generated/f.ext"), none⟩ =
      str "a.b@generated.f.ext" := by
  refine ⟨?_, ?_, by decide, by decide, by decide, by decide⟩
  · intro sp tn gn a h hne
    obtain ⟨hv, ha⟩ := mkAddress_ok_inv h
    unfold validAddress at hv
    simp only [Bool.and_eq_true] at hv
    obtain ⟨⟨⟨⟨hspec, htnv⟩, hgnv⟩, _⟩, _⟩ := hv
    subst ha
    apply path_safe_eq_naive_dir hne (okPath_of_okSpecPath hspec)
    · intro n hn
      by_cases hif : tn = some (lastSeg sp)
      · rw [if_pos hif] at hn
        exact Option.noConfusion hn
      · rw [if_neg hif] at hn
        rw [hn] at htnv
        exact htnv
    · intro g hg
      rw [hg] at hgnv
      exact hgnv
  · intro sp tn gn f a h hne hd
    obtain ⟨hv, ha⟩ := mkAddress_ok_inv h
    unfold validAddress at hv
    simp only [Bool.and_eq_true] at hv
    obtain ⟨⟨⟨⟨hspec, htnv⟩, hgnv⟩, hrfv⟩, hboth⟩ := hv
    have hgn0 : gn = none := by
      cases gn with
      | none => rfl
      | some g => simp at hboth
    subst hgn0
    subst ha
    apply path_safe_eq_naive_file0 hne (okPath_of_okSpecPath hspec) ?_ hrfv hd
    intro n hn
    by_cases hif : tn = some (lastSeg sp)
    · rw [if_pos hif] at hn
      exact Option.noConfusion hn
    · rw [if_neg hif] at hn
      rw [hn] at htnv
      exact htnv

/-- Witness for the `path_safe_spec` characterization: concrete agreement of
the substitution rendering for `a/b:c#gen` and for the file form `a/b/c.txt:c`. -/
theorem path_safe_spec_characterization_witness :
    Address.path_safe_spec ⟨str "a/b", some (str "c"), some (str "gen"), none⟩ =
      pathSafeSpecNaive ⟨str "a/b", some (str "c"), some (str "gen"), none⟩ ∧
    Address.path_safe_spec ⟨str "a/b", some (str "c"), none, some (str "c.txt")⟩ =
      pathSafeSpecNaive ⟨str "a/b", some (str "c"), none, some (str "c.txt")⟩ :=
  ⟨path_safe_spec_characterization.1 (str "a/b") (some (str "c")) (some (str "gen"))
      ⟨str "a/b", some (str "c"), some (str "gen"), none⟩ (by decide) (by decide),
   path_safe_spec_characterization.2.1 (str "a/b") (some (str "c")) none
      (str "c.txt") ⟨str "a/b", some (str "c"), none, some (str "c.txt")⟩
      (by decide) (by decide) (by decide)⟩

-- ### Address conversions and target resolution

/-- Modelled from the spec: `Address.maybe_convert_to_target_generator`
strips `generated_name` and `relative_file_path`, returning the owning
generator address (spec §4.1). -/
def Address.maybe_convert_to_target_generator (a : Address) : Address :=
  ⟨a.spec_path, a.target_name, none, none⟩

example : Address.maybe_convert_to_target_generator
    ⟨str "a/b", some (str "c"), some (str "generated"), none⟩ =
    ⟨str "a/b", some (str "c"), none, none⟩ := by decide
example : Address.maybe_convert_to_target_generator
    ⟨str "a/b", none, none, some (str "subdir/f.txt")⟩ =
    ⟨str "a/b", none, none, none⟩ := by decide

/-- Modelled from the spec: a declared target as the `TargetIndex` sees it:
its directory address, whether its kind generates file-level targets, and
the source files it matches (paths relative to its directory). -/
structure TgtDecl where
  address : Address
  generatesFileLevel : Bool
  files : List Str
deriving DecidableEq

/-- Errors of address-to-target resolution. -/
inductive ResolveErr : Type
  | notFound : ResolveErr
  | noSuchGeneratedFile : ResolveErr
deriving DecidableEq

/-- Modelled from the spec: resolving an `Address` to the address of the
target it denotes (spec §4.1/§4.4, pinned by `test_resolve_generated_target`):
a directory address resolves to its declaration; a file-level address
resolves through its generator — to the generated target when the kind
generates file-level targets and actually generates the file, and otherwise
falls back to the generator target itself. -/
def resolveAddress (ds : List TgtDecl) (a : Address) : Except ResolveErr Address :=
  match a.relative_file_path with
  | none =>
    match ds.find? (fun d => d.address = a) with
    | none => .error .notFound
    | some d => .ok d.address
  | some f =>
    match ds.find? (fun d => d.address = a.maybe_convert_to_target_generator) with
    | none => .error .notFound
    | some d =>
      if d.generatesFileLevel then
        if f ∈ d.files then .ok a else .error .noSuchGeneratedFile
      else .ok d.address

/-- C10 (implicit): resolving a file-level address whose owning target kind
does not generate file-level targets does not fail: it falls back to the
owning target at the generator address (the address with
`relative_file_path` stripped), the same result as resolving the plain
directory address. -/
theorem resolve_file_address_fallback (ds : List TgtDecl) (a : Address)
    (f : Str) (d : TgtDecl)
    (hf : a.relative_file_path = some f)
    (hd : ds.find? (fun x => x.address = a.maybe_convert_to_target_generator) = some d)
    (hng : d.generatesFileLevel = false) :
    resolveAddress ds a = .ok a.maybe_convert_to_target_generator ∧
    resolveAddress ds a = resolveAddress ds a.maybe_convert_to_target_generator := by
  have haddr : d.address = a.maybe_convert_to_target_generator := by
    have := List.find?_some hd
    exact of_decide_eq_true this
  have hgenrel : (a.maybe_convert_to_target_generator).relative_file_path = none := rfl
  have h1 : resolveAddress ds a = .ok d.address := by
    unfold resolveAddress
    rw [hf]
    simp only [hd, hng, Bool.false_eq_true, if_false]
  have h2 : resolveAddress ds a.maybe_convert_to_target_generator = .ok d.address := by
    unfold resolveAddress
    rw [hgenrel]
    simp only [hd]
  rw [h1, h2, haddr]
  exact ⟨rfl, rfl⟩

/-- Witness: the `non-generator` target owning `f1.txt`, resolved through the
file address, per `test_resolve_generated_target`. -/
theorem resolve_file_address_fallback_witness :
    resolveAddress
        [⟨⟨[], some (str "non-generator"), none, none⟩, false, [str "f1.txt"]⟩]
        ⟨[], some (str "non-generator"), none, some (str "f1.txt")⟩ =
      .ok (Address.maybe_convert_to_target_generator
        ⟨[], some (str "non-generator"), none, some (str "f1.txt")⟩) ∧
    resolveAddress
        [⟨⟨[], some (str "non-generator"), none, none⟩, false, [str "f1.txt"]⟩]
        ⟨[], some (str "non-generator"), none, some (str "f1.txt")⟩ =
      resolveAddress
        [⟨⟨[], some (str "non-generator"), none, none⟩, false, [str "f1.txt"]⟩]
        (Address.maybe_convert_to_target_generator
          ⟨[], some (str "non-generator"), none, some (str "f1.txt")⟩) :=
  resolve_file_address_fallback _ _ (str "f1.txt")
    ⟨⟨[], some (str "non-generator"), none, none⟩, false, [str "f1.txt"]⟩
    (by decide) (by decide) (by decide)

-- ### Deduplication lemmas

theorem contains_mem {α : Type} [DecidableEq α] {l : List α} {a : α} :
    l.contains a = true ↔ a ∈ l := by
  simp

theorem mem_dedupeAux {α : Type} [DecidableEq α] (x : α) :
    ∀ (l seen : List α), x ∈ dedupeAux seen l ↔ x ∈ l ∧ x ∉ seen
  | [], seen => by simp [dedupeAux]
  | a :: rest, seen => by
    by_cases hs : seen.contains a = true
    · rw [dedupeAux, if_pos hs, mem_dedupeAux x rest seen]
      constructor
      · rintro ⟨h1, h2⟩
        exact ⟨List.mem_cons_of_mem a h1, h2⟩
      · rintro ⟨h1, h2⟩
        rcases List.mem_cons.mp h1 with h | h
        · exact absurd (h ▸ contains_mem.mp hs) h2
        · exact ⟨h, h2⟩
    · rw [dedupeAux, if_neg hs]
      constructor
      · intro hmem
        rcases List.mem_cons.mp hmem with h | h
        · subst h
          exact ⟨List.mem_cons_self x rest,
            fun hx => hs (contains_mem.mpr hx)⟩
        · obtain ⟨h1, h2⟩ := (mem_dedupeAux x rest (a :: seen)).mp h
          exact ⟨List.mem_cons_of_mem a h1,
            fun hx => h2 (List.mem_cons_of_mem a hx)⟩
      · rintro ⟨h1, h2⟩
        rcases List.mem_cons.mp h1 with h | h
        · exact h ▸ List.mem_cons_self a _
        · by_cases hxa : x = a
          · exact hxa ▸ List.mem_cons_self a _
          · exact List.mem_cons_of_mem a ((mem_dedupeAux x rest (a :: seen)).mpr
              ⟨h, fun hx => by
                rcases List.mem_cons.mp hx with h3 | h3
                · exact hxa h3
                · exact h2 h3⟩)

theorem mem_dedupe {α : Type} [DecidableEq α] {x : α} {l : List α} :
    x ∈ dedupe l ↔ x ∈ l := by
  unfold dedupe
  rw [mem_dedupeAux]
  simp

theorem nodup_dedupeAux {α : Type} [DecidableEq α] :
    ∀ (l seen : List α), (dedupeAux seen l).Nodup
  | [], seen => List.nodup_nil
  | a :: rest, seen => by
    by_cases hs : seen.contains a = true
    · rw [dedupeAux, if_pos hs]
      exact nodup_dedupeAux rest seen
    · rw [dedupeAux, if_neg hs]
      refine List.nodup_cons.mpr ⟨?_, nodup_dedupeAux rest (a :: seen)⟩
      intro hmem
      obtain ⟨_, h2⟩ := (mem_dedupeAux a rest (a :: seen)).mp hmem
      exact h2 (List.mem_cons_self a seen)

theorem nodup_dedupe {α : Type} [DecidableEq α] (l : List α) : (dedupe l).Nodup :=
  nodup_dedupeAux l []

theorem dedupeAux_filter {α : Type} [DecidableEq α] (p : α → Bool) :
    ∀ (l seen seen2 : List α),
      (∀ x, p x = true → (x ∈ seen ↔ x ∈ seen2)) →
      (dedupeAux seen l).filter p = dedupeAux seen2 (l.filter p)
  | [], _, _, _ => by simp [dedupeAux]
  | a :: rest, seen, seen2, hiff => by
    by_cases hs : seen.contains a = true
    · rw [dedupeAux, if_pos hs]
      by_cases hp : p a = true
      · have hs2 : seen2.contains a = true :=
          contains_mem.mpr ((hiff a hp).mp (contains_mem.mp hs))
        rw [List.filter_cons_of_pos hp, dedupeAux, if_pos hs2]
        exact dedupeAux_filter p rest seen seen2 hiff
      · rw [List.filter_cons_of_neg (by simpa using hp)]
        exact dedupeAux_filter p rest seen seen2 hiff
    · rw [dedupeAux, if_neg hs]
      by_cases hp : p a = true
      · have hs2 : ¬(seen2.contains a = true) := fun hc =>
          hs (contains_mem.mpr ((hiff a hp).mpr (contains_mem.mp hc)))
        rw [List.filter_cons_of_pos hp, List.filter_cons_of_pos hp, dedupeAux,
          if_neg hs2]
        congr 1
        refine dedupeAux_filter p rest (a :: seen) (a :: seen2) ?_
        intro x hx
        constructor
        · intro hm
          rcases List.mem_cons.mp hm with h | h
          · exact h ▸ List.mem_cons_self a seen2
          · exact List.mem_cons_of_mem a ((hiff x hx).mp h)
        · intro hm
          rcases List.mem_cons.mp hm with h | h
          · exact h ▸ List.mem_cons_self a seen
          · exact List.mem_cons_of_mem a ((hiff x hx).mpr h)
      · rw [List.filter_cons_of_neg (by simpa using hp),
          List.filter_cons_of_neg (by simpa using hp)]
        refine dedupeAux_filter p rest (a :: seen) seen2 ?_
        intro x hx
        have hxa : x ≠ a := fun hc => hp (hc ▸ hx)
        constructor
        · intro hm
          rcases List.mem_cons.mp hm with h | h
          · exact absurd h hxa
          · exact (hiff x hx).mp h
        · intro hm
          exact List.mem_cons_of_mem a ((hiff x hx).mpr hm)

theorem dedupe_filter {α : Type} [DecidableEq α] (p : α → Bool) (l : List α) :
    (dedupe l).filter p = dedupe (l.filter p) :=
  dedupeAux_filter p l [] [] (fun _ _ => Iff.rfl)

-- ### Dependency entries and direct-dependency resolution
-- Modelled from the spec (§4.2): the implementation module
-- `pants/engine/internals/graph.py` is not among the provided sources; only
-- its test suite is.

/-- An entry of a `dependencies` field: a bare include, a `!`-ignore, or a
`!!`-transitive-exclude. -/
inductive DepEntry (α : Type) : Type
  | inc : α → DepEntry α
  | ign : α → DepEntry α
  | texc : α → DepEntry α
deriving DecidableEq

/-- The include addresses of a dependency list. -/
def incsOf {α : Type} : List (DepEntry α) → List α
  | [] => []
  | .inc a :: es => a :: incsOf es
  | .ign _ :: es => incsOf es
  | .texc _ :: es => incsOf es

/-- The `!`-ignored addresses of a dependency list. -/
def ignsOf {α : Type} : List (DepEntry α) → List α
  | [] => []
  | .ign a :: es => a :: ignsOf es
  | .inc _ :: es => ignsOf es
  | .texc _ :: es => ignsOf es

/-- The `!!`-transitively-excluded addresses of a dependency list. -/
def texcsOf {α : Type} : List (DepEntry α) → List α
  | [] => []
  | .texc a :: es => a :: texcsOf es
  | .inc _ :: es => texcsOf es
  | .ign _ :: es => texcsOf es

/-- Modelled from the spec: single-target direct-dependency resolution
(spec §4.2): explicit includes, then all injected addresses, then inferred
addresses, deduplicated keeping first occurrences, minus the explicit
`!`-ignores and the file-scoped `!!`-transitive-excludes. -/
def resolveDeps {α : Type} [DecidableEq α]
    (includes injected inferred ignores texcl : List α) : List α :=
  (dedupe (includes ++ injected ++ inferred)).filter
    (fun a => !(ignores.contains a) && !(texcl.contains a))

/-- Direct dependencies contributed by a declaration's own entries (no
injection or inference). -/
def depsOfDecl {α : Type} [DecidableEq α] (es : List (DepEntry α)) : List α :=
  resolveDeps (incsOf es) [] [] (ignsOf es) (texcsOf es)

/-- Modelled from the spec: injection-hook dispatch (spec §4.2/§9): the
capability registry maps a field-kind name to the addresses its hook
injects; every hook registered against the field's kind or one of its
ancestor kinds fires, in registration order, and the results are unioned. -/
def injectedFor {α : Type} (registry : List (String × List α))
    (kinds : List String) : List α :=
  (registry.filter (fun h => kinds.contains h.1)).flatMap (fun h => h.2)

-- ### Transitive closure engine

/-- Breadth-first discovery of the dependency closure, level by level:
`queued` holds the nodes whose dependencies are expanded next, `visited`
the nodes discovered so far (the traversal roots themselves are only added
if rediscovered through an edge). -/
def bfs {α : Type} [DecidableEq α] (deps : α → List α) :
    Nat → List α → List α → List α
  | 0, _, visited => visited
  | _ + 1, [], visited => visited
  | fuel + 1, queued, visited =>
    let discovered := dedupe ((queued.flatMap deps).filter
      (fun a => !(visited.contains a)))
    bfs deps fuel discovered (visited ++ discovered)

/-- The data of a `CycleException`: the repeated address and the full DFS
stack from the root down to the repeated address inclusive. -/
structure CycleInfo (α : Type) : Type where
  subject : α
  path : List α
deriving DecidableEq

/-- One step-machine DFS for cycle detection (spec §4.3, pinned by the cycle
tests): work items are either `visit a` (`Sum.inl`) or `pop a` (`Sum.inr`,
scheduled after `a`'s children).  On revisiting an address still on the DFS
stack, the cycle (the stack suffix starting at the repeated address) is
tolerated when it contains at least one cycle-tolerant address, and
otherwise reported as a `CycleException` carrying the full stack plus the
repeated address. -/
def dfsRun {α : Type} [DecidableEq α] (deps : α → List α) (tol : α → Bool) :
    Nat → List α → List α → List (Sum α α) → Except (CycleInfo α) (List α)
  | _, _, visited, [] => .ok visited
  | 0, _, visited, _ => .ok visited
  | fuel + 1, stack, visited, .inr _ :: rest =>
    dfsRun deps tol fuel stack.dropLast visited rest
  | fuel + 1, stack, visited, .inl a :: rest =>
    if visited.contains a then
      if stack.contains a &&
          !((stack.dropWhile (fun x => !(x = a))).any tol) then
        .error ⟨a, stack ++ [a]⟩
      else dfsRun deps tol fuel stack visited rest
    else
      dfsRun deps tol fuel (stack ++ [a]) (visited ++ [a])
        ((deps a).map Sum.inl ++ Sum.inr a :: rest)

/-- Cycle detection over all roots (shared visited set, fresh stack). -/
def detectCycles {α : Type} [DecidableEq α] (deps : α → List α)
    (tol : α → Bool) (fuel : Nat) (roots : List α) :
    Except (CycleInfo α) (List α) :=
  dfsRun deps tol fuel [] [] (roots.map Sum.inl)

/-- The result of a `TransitiveTargets` request. -/
structure TTRes (α : Type) : Type where
  roots : List α
  dependencies : List α
  closure : List α
deriving DecidableEq

/-- Modelled from the spec: the `TransitiveTargets` computation (spec §4.3):
breadth-first discovery of the closure from the roots in request order
(roots themselves enter the discovered set only when rediscovered through
an edge), cycle detection over the discovered dependency mapping, then
subtraction of every `!!`-transitive-exclude declared by any root or
discovered target; `roots` are echoed back verbatim and `closure` is the
deduplicated concatenation of roots and dependencies. -/
def transitiveTargets {α : Type} [DecidableEq α]
    (decls : α → List (DepEntry α)) (tol : α → Bool) (fuel : Nat)
    (roots : List α) : Except (CycleInfo α) (TTRes α) :=
  let deps := fun x => depsOfDecl (decls x)
  let visited := bfs deps fuel roots []
  match detectCycles deps tol fuel roots with
  | .error e => .error e
  | .ok _ =>
    let excludes := (roots ++ visited).flatMap (fun x => texcsOf (decls x))
    let dependencies := visited.filter (fun x => !(excludes.contains x))
    .ok ⟨roots, dependencies, dedupe (roots ++ dependencies)⟩

/-- The cycle check as the claim's sentence literally reads: fail as soon as
a non-tolerant address is revisited while still on the DFS stack, regardless
of the other members of the cycle. -/
def dfsRunStrict {α : Type} [DecidableEq α] (deps : α → List α)
    (tol : α → Bool) :
    Nat → List α → List α → List (Sum α α) → Except (CycleInfo α) (List α)
  | _, _, visited, [] => .ok visited
  | 0, _, visited, _ => .ok visited
  | fuel + 1, stack, visited, .inr _ :: rest =>
    dfsRunStrict deps tol fuel stack.dropLast visited rest
  | fuel + 1, stack, visited, .inl a :: rest =>
    if visited.contains a then
      if stack.contains a && !(tol a) then
        .error ⟨a, stack ++ [a]⟩
      else dfsRunStrict deps tol fuel stack visited rest
    else
      dfsRunStrict deps tol fuel (stack ++ [a]) (visited ++ [a])
        ((deps a).map Sum.inl ++ Sum.inr a :: rest)

/-- Cycle detection under the claim's literal reading. -/
def detectCyclesStrict {α : Type} [DecidableEq α] (deps : α → List α)
    (tol : α → Bool) (fuel : Nat) (roots : List α) :
    Except (CycleInfo α) (List α) :=
  dfsRunStrict deps tol fuel [] [] (roots.map Sum.inl)

-- ### Concrete graphs from the test suite

/-- A root-level target address `//:n`. -/
def tgtA (n : String) : Address := ⟨[], some (str n), none, none⟩

/-- A root-level file-level (generated) address `//f:n`. -/
def fileA (n f : String) : Address := ⟨[], some (str n), none, some (str f)⟩

/-- The 3-node indirect cycle `t1→t2→t3→t2` of `test_dep_cycle_indirect`. -/
def declsIndirect : Address → List (DepEntry Address) := fun x =>
  if x = tgtA "t1" then [.inc (tgtA "t2")]
  else if x = tgtA "t2" then [.inc (tgtA "t3")]
  else if x = tgtA "t3" then [.inc (tgtA "t2")]
  else []

/-- The 2-node mutual dependency of `test_dep_cycle_direct`. -/
def declsDirect : Address → List (DepEntry Address) := fun x =>
  if x = tgtA "t1" then [.inc (tgtA "t2")]
  else if x = tgtA "t2" then [.inc (tgtA "t1")]
  else []

/-- The mixed cycle of `test_dep_no_cycle_indirect`: the non-tolerant
generator `//:t1` depends on the tolerant file-level `t2.txt:t2`, which
depends back on `//:t1`. -/
def declsMixed : Address → List (DepEntry Address) := fun x =>
  if x = tgtA "t1" then [.inc (fileA "t2" "t2.txt")]
  else if x = fileA "t2" "t2.txt" then [.inc (tgtA "t1")]
  else []

example : transitiveTargets declsIndirect Address.isFileTarget 10 [tgtA "t1"] =
    .error ⟨tgtA "t2", [tgtA "t1", tgtA "t2", tgtA "t3", tgtA "t2"]⟩ := by decide
example : transitiveTargets declsMixed Address.isFileTarget 10 [tgtA "t1"] =
    .ok ⟨[tgtA "t1"], [fileA "t2" "t2.txt", tgtA "t1"],
         [tgtA "t1", fileA "t2" "t2.txt"]⟩ := by decide

/-- The self-cycle of `test_dep_cycle_self`. -/
def declsSelf : Address → List (DepEntry Address) := fun x =>
  if x = tgtA "t1" then [.inc (tgtA "t1")] else []

/-- C2 counterexample: in the mixed graph `//:t1 → t2.txt:t2 → //:t1` the
non-tolerant address `//:t1` is revisited while still on the DFS stack —
under the claim's literal rule the computation would fail with
`CycleException(t1, (t1, t2.txt:t2, t1))` — yet `TransitiveTargets`
succeeds, because the cycle contains the tolerant file-level member
`t2.txt:t2` (per `test_dep_no_cycle_indirect`). -/
theorem cycle_detection_not_only_subject_tolerance :
    detectCyclesStrict (fun x => depsOfDecl (declsMixed x)) Address.isFileTarget
        20 [tgtA "t1"] =
      .error ⟨tgtA "t1", [tgtA "t1", fileA "t2" "t2.txt", tgtA "t1"]⟩ ∧
    transitiveTargets declsMixed Address.isFileTarget 20 [tgtA "t1"] =
      .ok ⟨[tgtA "t1"], [fileA "t2" "t2.txt", tgtA "t1"],
           [tgtA "t1", fileA "t2" "t2.txt"]⟩ := by decide

/-- C2 (amended): a revisit of an address still on the DFS stack fails with
`CycleException` — whose path is the full stack from the root down to the
repeated address inclusive, in visitation order — exactly when the cycle
(the stack suffix from the repeated address) contains no cycle-tolerant
address.  Concretely, among non-tolerant targets: `t1→t2→t3→t2` rooted at
`t1` fails with subject `t2` and path `(t1, t2, t3, t2)` and rooted at `t2`
with path `(t2, t3, t2)`; the 2-cycle rooted at `t1` fails with path
`(t1, t2, t1)`; the self-cycle fails with path `(t1, t1)`; while a cycle
through the tolerant `t2.txt:t2` is tolerated. -/
theorem transitive_targets_cycle_detection :
    transitiveTargets declsIndirect Address.isFileTarget 20 [tgtA "t1"] =
      .error ⟨tgtA "t2", [tgtA "t1", tgtA "t2", tgtA "t3", tgtA "t2"]⟩ ∧
    transitiveTargets declsIndirect Address.isFileTarget 20 [tgtA "t2"] =
      .error ⟨tgtA "t2", [tgtA "t2", tgtA "t3", tgtA "t2"]⟩ ∧
    transitiveTargets declsDirect Address.isFileTarget 20 [tgtA "t1"] =
      .error ⟨tgtA "t1", [tgtA "t1", tgtA "t2", tgtA "t1"]⟩ ∧
    transitiveTargets declsDirect Address.isFileTarget 20 [tgtA "t2"] =
      .error ⟨tgtA "t2", [tgtA "t2", tgtA "t1", tgtA "t2"]⟩ ∧
    transitiveTargets declsSelf Address.isFileTarget 20 [tgtA "t1"] =
      .error ⟨tgtA "t1", [tgtA "t1", tgtA "t1"]⟩ ∧
    transitiveTargets declsMixed Address.isFileTarget 20 [tgtA "t1"] =
      .ok ⟨[tgtA "t1"], [fileA "t2" "t2.txt", tgtA "t1"],
           [tgtA "t1", fileA "t2" "t2.txt"]⟩ := by decide

/-- The transitive-exclude graph of `test_transitive_targets_transitive_exclude`:
`root` depends on `intermediate` and transitively excludes `base`;
`intermediate` depends on `base`. -/
def declsC3 : Address → List (DepEntry Address) := fun x =>
  if x = tgtA "root" then [.inc (tgtA "intermediate"), .texc (tgtA "base")]
  else if x = tgtA "intermediate" then [.inc (tgtA "base")]
  else []

/-- C3 (transitive excludes): with `root deps=[':intermediate', '!!:base']`
and `intermediate deps=[':base']`, the closure rooted at `root` excludes
`base` even though `base` is reachable (it is a direct dependency of
`intermediate`, which is in the closure). -/
theorem transitive_exclude_removes_transitively :
    transitiveTargets declsC3 Address.isFileTarget 20 [tgtA "root"] =
      .ok ⟨[tgtA "root"], [tgtA "intermediate"],
           [tgtA "root", tgtA "intermediate"]⟩ ∧
    tgtA "base" ∈ depsOfDecl (declsC3 (tgtA "intermediate")) ∧
    tgtA "intermediate" ∈ ([tgtA "root", tgtA "intermediate"] : List Address) ∧
    tgtA "base" ∉ ([tgtA "root", tgtA "intermediate"] : List Address) := by decide

/-- The graph of `test_transitive_targets`: `t2→t1`, `d1→t1`, `d2→t2`,
`root→d1,d2,d3`. -/
def declsC7 : Address → List (DepEntry Address) := fun x =>
  if x = tgtA "t2" then [.inc (tgtA "t1")]
  else if x = tgtA "d1" then [.inc (tgtA "t1")]
  else if x = tgtA "d2" then [.inc (tgtA "t2")]
  else if x = tgtA "root" then [.inc (tgtA "d1"), .inc (tgtA "d2"), .inc (tgtA "d3")]
  else []

/-- C7 (result structure): whenever `TransitiveTargets` succeeds, the roots
are echoed back verbatim in request order and the closure is the
deduplicated union of the roots and the dependencies; concretely, for the
graph of `test_transitive_targets` requested with roots `(root, d2)`, the
dependencies are `(d1, d2, d3, t2, t1)` and the closure
`(root, d2, d1, d3, t2, t1)` — in particular `d2`, which is both a root and
reachable from `root` via a non-root path, appears in the dependencies. -/
theorem transitive_targets_result_structure :
    (∀ (decls : Address → List (DepEntry Address)) (tol : Address → Bool)
        (fuel : Nat) (roots : List Address) (r : TTRes Address),
      transitiveTargets decls tol fuel roots = .ok r →
      r.roots = roots ∧ r.closure = dedupe (roots ++ r.dependencies)) ∧
    (transitiveTargets declsC7 Address.isFileTarget 20 [tgtA "root", tgtA "d2"] =
      .ok ⟨[tgtA "root", tgtA "d2"],
           [tgtA "d1", tgtA "d2", tgtA "d3", tgtA "t2", tgtA "t1"],
           [tgtA "root", tgtA "d2", tgtA "d1", tgtA "d3", tgtA "t2", tgtA "t1"]⟩) ∧
    tgtA "d2" ∈ ([tgtA "d1", tgtA "d2", tgtA "d3", tgtA "t2", tgtA "t1"] :
      List Address) ∧
    tgtA "d2" ∈ ([tgtA "root", tgtA "d2"] : List Address) := by
  refine ⟨?_, by decide, by decide, by decide⟩
  intro decls tol fuel roots r h
  simp only [transitiveTargets] at h
  split at h
  · exact Except.noConfusion h
  · injection h with h
    subst h
    exact ⟨rfl, rfl⟩

/-- Witness for the result-structure theorem at the concrete graph of
`test_transitive_targets`. -/
theorem transitive_targets_result_structure_witness :
    TTRes.roots ⟨[tgtA "root", tgtA "d2"],
        [tgtA "d1", tgtA "d2", tgtA "d3", tgtA "t2", tgtA "t1"],
        [tgtA "root", tgtA "d2", tgtA "d1", tgtA "d3", tgtA "t2", tgtA "t1"]⟩ =
      [tgtA "root", tgtA "d2"] ∧
    TTRes.closure ⟨[tgtA "root", tgtA "d2"],
        [tgtA "d1", tgtA "d2", tgtA "d3", tgtA "t2", tgtA "t1"],
        [tgtA "root", tgtA "d2", tgtA "d1", tgtA "d3", tgtA "t2", tgtA "t1"]⟩ =
      dedupe ([tgtA "root", tgtA "d2"] ++
        [tgtA "d1", tgtA "d2", tgtA "d3", tgtA "t2", tgtA "t1"]) :=
  transitive_targets_result_structure.1 declsC7 Address.isFileTarget 20
    [tgtA "root", tgtA "d2"] _ (by decide)

-- ### SCC coarsening

/-- Addresses reachable from `x` (including `x`) along dependency edges
restricted to cycle-tolerant endpoints. -/
def reachT {α : Type} [DecidableEq α] (deps : α → List α) (tol : α → Bool)
    (fuel : Nat) (x : α) : List α :=
  bfs (fun y => if tol y then (deps y).filter tol else []) fuel [x] [x]

/-- Modelled from the spec: the strongly-connected component of `x` under
dependency edges among cycle-tolerant addresses (spec §4.3): all tolerant
addresses mutually reachable with `x`; a non-tolerant address is its own
singleton component. -/
def sccOf {α : Type} [DecidableEq α] (deps : α → List α) (tol : α → Bool)
    (fuel : Nat) (x : α) : List α :=
  (reachT deps tol fuel x).filter (fun y => (reachT deps tol fuel y).contains x)

/-- One strongly-connected component of the fine-grained dependency graph. -/
structure CoarsenedTarget (α : Type) : Type where
  members : List α
  dependencies : List α
deriving DecidableEq

/-- Modelled from the spec: the `CoarsenedTarget` containing `x`
(spec §4.3): its members are `x`'s SCC, its dependencies the union of the
members' direct edges minus edges back into the SCC (which also removes
self-references), deduplicated. -/
def coarsenedFor {α : Type} [DecidableEq α] (deps : α → List α)
    (tol : α → Bool) (fuel : Nat) (x : α) : CoarsenedTarget α :=
  let m := sccOf deps tol fuel x
  ⟨m, dedupe ((m.flatMap deps).filter (fun d => !(m.contains d)))⟩

/-- The file-level 2-cycle plus shared external dependency of
`test_coarsened_targets`: `t1.txt:t1 ↔ t2.txt:t2`, `t1.txt:t1 → dep.txt:dep`. -/
def depsC4 : Address → List Address := fun x =>
  if x = fileA "t1" "t1.txt" then [fileA "dep" "dep.txt", fileA "t2" "t2.txt"]
  else if x = fileA "t2" "t2.txt" then [fileA "t1" "t1.txt"]
  else []

/-- C4 (coarsening): for the tolerant file-level 2-cycle with a shared
external dependency, the coarsened target of either cycle member has
exactly the two cycle addresses as members and `{dep}` as its only
dependency (edges back into the SCC and self-references removed); and in
general an SCC of size 1 with no self-edge coarsens to a singleton whose
dependencies are exactly its (deduplicated) direct edges. -/
theorem coarsened_targets_cycle :
    (coarsenedFor depsC4 Address.isFileTarget 10 (fileA "t1" "t1.txt")).members =
      [fileA "t1" "t1.txt", fileA "t2" "t2.txt"] ∧
    (coarsenedFor depsC4 Address.isFileTarget 10 (fileA "t1" "t1.txt")).dependencies =
      [fileA "dep" "dep.txt"] ∧
    (coarsenedFor depsC4 Address.isFileTarget 10 (fileA "t2" "t2.txt")).members =
      [fileA "t2" "t2.txt", fileA "t1" "t1.txt"] ∧
    (coarsenedFor depsC4 Address.isFileTarget 10 (fileA "t2" "t2.txt")).dependencies =
      [fileA "dep" "dep.txt"] ∧
    (coarsenedFor depsC4 Address.isFileTarget 10 (fileA "t1" "t1.txt")).members.Perm
      (coarsenedFor depsC4 Address.isFileTarget 10 (fileA "t2" "t2.txt")).members ∧
    (coarsenedFor depsC4 Address.isFileTarget 10 (fileA "dep" "dep.txt")).members =
      [fileA "dep" "dep.txt"] ∧
    (coarsenedFor depsC4 Address.isFileTarget 10 (fileA "dep" "dep.txt")).dependencies =
      [] ∧
    (∀ (deps : Address → List Address) (tol : Address → Bool) (fuel : Nat)
        (x : Address),
      sccOf deps tol fuel x = [x] → x ∉ deps x →
      (coarsenedFor deps tol fuel x).dependencies = dedupe (deps x)) := by
  refine ⟨by decide, by decide, by decide, by decide, by decide, by decide,
    by decide, ?_⟩
  intro deps tol fuel x hscc hx
  simp only [coarsenedFor, hscc]
  have hflat : ([x].flatMap deps) = deps x := by simp
  rw [hflat]
  have hfilter : (deps x).filter (fun d => !(([x] : List Address).contains d)) =
      deps x := by
    apply List.filter_eq_self.mpr
    intro d hd
    have hdx : d ≠ x := fun hc => hx (hc ▸ hd)
    simp [hdx]
  rw [hfilter]

/-- Witness for the singleton-SCC rule at the concrete external dependency
node of `test_coarsened_targets`. -/
theorem coarsened_targets_cycle_witness :
    (coarsenedFor depsC4 Address.isFileTarget 10 (fileA "dep" "dep.txt")).dependencies =
      dedupe (depsC4 (fileA "dep" "dep.txt")) :=
  coarsened_targets_cycle.2.2.2.2.2.2.2 depsC4 Address.isFileTarget 10
    (fileA "dep" "dep.txt") (by decide) (by decide)

-- ### C5: direct-dependency resolution characterization

/-- The injection registry of `test_dependency_injection`: one hook on
`SmalltalkDependencies` injecting `injected1, injected2`, one on the
subclass `CustomSmalltalkDependencies` injecting `custom_injected`. -/
def regC5 : List (String × List Address) :=
  [("SmalltalkDependencies", [tgtA "injected1", tgtA "injected2"]),
   ("CustomSmalltalkDependencies", [tgtA "custom_injected"])]

/-- The kind of `CustomSmalltalkDependencies` together with its ancestors. -/
def kindsCustom : List String :=
  ["CustomSmalltalkDependencies", "SmalltalkDependencies", "Dependencies"]

/-- C5 (direct-dependency resolution): membership in the resolved direct
dependencies is exactly membership in the union of explicit includes,
injected and inferred addresses minus the explicit `!`-ignores and the
file-scoped `!!`-transitive-excludes; the result is the first-seen-order
deduplication of that filtered union (hence duplicate-free); every hook
registered against the field's kind or an ancestor kind contributes all its
addresses; and concretely (per `test_dependency_injection` with a
`CustomSmalltalkDependencies` field) both hooks fire and the explicit
ignore `!//:injected2` removes an address contributed by injection. -/
theorem direct_dependency_resolution :
    (∀ (inc inj inferred ign tex : List Address) (x : Address),
      x ∈ resolveDeps inc inj inferred ign tex ↔
        ((x ∈ inc ∨ x ∈ inj ∨ x ∈ inferred) ∧ x ∉ ign ∧ x ∉ tex)) ∧
    (∀ (inc inj inferred ign tex : List Address),
      resolveDeps inc inj inferred ign tex =
        dedupe ((inc ++ inj ++ inferred).filter
          (fun a => !(ign.contains a) && !(tex.contains a)))) ∧
    (∀ (inc inj inferred ign tex : List Address),
      (resolveDeps inc inj inferred ign tex).Nodup) ∧
    (∀ (registry : List (String × List Address)) (kinds : List String)
        (h : String × List Address) (x : Address),
      h ∈ registry → kinds.contains h.1 = true → x ∈ h.2 →
      x ∈ injectedFor registry kinds) ∧
    (injectedFor regC5 kindsCustom =
      [tgtA "injected1", tgtA "injected2", tgtA "custom_injected"]) ∧
    (resolveDeps [tgtA "provided"] (injectedFor regC5 kindsCustom) []
        [tgtA "injected2"] [] =
      [tgtA "provided", tgtA "injected1", tgtA "custom_injected"]) ∧
    tgtA "injected2" ∉
      resolveDeps [tgtA "provided"] (injectedFor regC5 kindsCustom) []
        [tgtA "injected2"] [] := by
  refine ⟨?_, ?_, ?_, ?_, by decide, by decide, by decide⟩
  · intro inc inj inferred ign tex x
    unfold resolveDeps
    rw [List.mem_filter, mem_dedupe]
    simp [List.mem_append, and_assoc]
  · intro inc inj inferred ign tex
    exact dedupe_filter _ _
  · intro inc inj inferred ign tex
    exact (nodup_dedupe _).filter _
  · intro registry kinds h x hreg hk hx
    unfold injectedFor
    exact List.mem_flatMap.mpr ⟨h, List.mem_filter.mpr ⟨hreg, hk⟩, hx⟩

/-- Witness for the resolution characterization: the ignored injected
address is exactly the one removed at a concrete instance. -/
theorem direct_dependency_resolution_witness :
    (tgtA "injected2" ∈
        resolveDeps [tgtA "provided"] [tgtA "injected1", tgtA "injected2"] []
          [] [] ↔
      ((tgtA "injected2" ∈ [tgtA "provided"] ∨
        tgtA "injected2" ∈ [tgtA "injected1", tgtA "injected2"] ∨
        tgtA "injected2" ∈ ([] : List Address)) ∧
       tgtA "injected2" ∉ ([] : List Address) ∧
       tgtA "injected2" ∉ ([] : List Address))) ∧
    tgtA "custom_injected" ∈ injectedFor regC5 kindsCustom :=
  ⟨direct_dependency_resolution.1 [tgtA "provided"]
      [tgtA "injected1", tgtA "injected2"] [] [] [] (tgtA "injected2"),
   direct_dependency_resolution.2.2.2.1 regC5 kindsCustom
      ("CustomSmalltalkDependencies", [tgtA "custom_injected"])
      (tgtA "custom_injected") (by decide) (by decide) (by decide)⟩

-- ### Owners index

/-- A source glob: a literal filename or a `*suffix` extension pattern,
matched against filenames within the declaring directory. -/
inductive Glob : Type
  | lit : Str → Glob
  | ext : Str → Glob
deriving DecidableEq

/-- Does a glob match a filename? -/
def globMatch : Glob → Str → Bool
  | .lit n, f => n = f
  | .ext suf, f => trailsWith suf f

/-- Modelled from the spec: a target as the `OwnersIndex` sees it
(spec §4.4): its directory address, whether it is a target generator, its
primary source globs and the filespecs of its secondary-owner fields. -/
structure OwnTgt : Type where
  addr : Address
  isGen : Bool
  sources : List Glob
  secondarySources : List Glob
deriving DecidableEq

/-- Directory part of a file path. -/
def dirOf (p : Str) : Str := joinCh '/' (dropLastComp (splitOnCh '/' p))

/-- Filename part of a file path. -/
def baseOf (p : Str) : Str := lastComp (splitOnCh '/' p)

/-- Does a requested path fall in the target's directory and match one of
the given globs? -/
def matchesGlobs (dir : Str) (gs : List Glob) (p : Str) : Bool :=
  dirOf p = dir && gs.any (fun g => globMatch g (baseOf p))

/-- Modelled from the spec: the owners of one requested file path
(spec §4.4): a target whose primary source globs match contributes its
generated file-level address when it is a generator and the file exists on
disk, and its own address otherwise (in particular whenever the file does
not exist); a target whose secondary-owner filespec matches always
contributes its own address. -/
def ownersForPath (tgts : List OwnTgt) (live : Str → Bool) (p : Str) :
    List Address :=
  tgts.flatMap fun t =>
    (if matchesGlobs t.addr.spec_path t.sources p then
      if t.isGen && live p then
        [{ t.addr with relative_file_path := some (baseOf p) }]
      else [t.addr]
     else []) ++
    (if matchesGlobs t.addr.spec_path t.secondarySources p then [t.addr] else [])

/-- Owners of a set of requested paths, deduplicated. -/
def owners (tgts : List OwnTgt) (live : Str → Bool) (paths : List Str) :
    List Address :=
  dedupe (paths.flatMap (ownersForPath tgts live))

/-- The `demo/` targets of `test_owners_source_file_does_not_exist`. -/
def demoTgts : List OwnTgt :=
  [⟨⟨str "demo", some (str "not-generator"), none, none⟩, false,
     [Glob.ext (str ".txt")], []⟩,
   ⟨⟨str "demo", some (str "generator"), none, none⟩, true,
     [Glob.ext (str ".txt")], []⟩,
   ⟨⟨str "demo", some (str "secondary"), none, none⟩, false, [],
     [Glob.lit (str "deleted.txt")]⟩]

/-- On-disk state of that test: only `demo/f.txt` exists. -/
def demoLive : Str → Bool := fun p => p = str "demo/f.txt"

/-- C6 (owners of a deleted file): when the requested file does not exist on
disk, every owner returned is a non-file-level address (generated-target
resolution is skipped) and every generator or plain target whose glob
matches contributes its own address; concretely (per
`test_owners_source_file_does_not_exist`) the deleted `demo/deleted.txt`
is owned by the generator, the plain target and the secondary owner at
their own addresses, while the existing `demo/f.txt` is owned by the
generator's generated file-level address plus the plain target — and not
by the generator's own address. -/
theorem owners_deleted_file :
    (∀ (tgts : List OwnTgt) (live : Str → Bool) (p : Str) (a : Address),
      (∀ t ∈ tgts, t.addr.relative_file_path = none) → live p = false →
      a ∈ ownersForPath tgts live p → a.relative_file_path = none) ∧
    (∀ (tgts : List OwnTgt) (live : Str → Bool) (p : Str) (t : OwnTgt),
      t ∈ tgts → live p = false →
      matchesGlobs t.addr.spec_path t.sources p = true →
      t.addr ∈ ownersForPath tgts live p) ∧
    (owners demoTgts demoLive [str "demo/deleted.txt"] =
      [⟨str "demo", some (str "not-generator"), none, none⟩,
       ⟨str "demo", some (str "generator"), none, none⟩,
       ⟨str "demo", some (str "secondary"), none, none⟩]) ∧
    (owners demoTgts demoLive [str "demo/f.txt"] =
      [⟨str "demo", some (str "not-generator"), none, none⟩,
       ⟨str "demo", some (str "generator"), none, some (str "f.txt")⟩]) ∧
    (⟨str "demo", some (str "generator"), none, none⟩ : Address) ∉
      owners demoTgts demoLive [str "demo/f.txt"] := by
  refine ⟨?_, ?_, by decide, by decide, by decide⟩
  · intro tgts live p a hdir hlive ha
    rcases List.mem_flatMap.mp ha with ⟨t, ht, hmem⟩
    have hgen : (t.isGen && live p) = false := by
      rw [hlive, Bool.and_false]
    rcases List.mem_append.mp hmem with h | h
    · by_cases hm : matchesGlobs t.addr.spec_path t.sources p = true
      · rw [if_pos hm, hgen] at h
        simp only [Bool.false_eq_true, if_false, List.mem_singleton] at h
        rw [h]
        exact hdir t ht
      · rw [if_neg hm] at h
        exact absurd h (List.not_mem_nil a)
    · by_cases hm : matchesGlobs t.addr.spec_path t.secondarySources p = true
      · rw [if_pos hm] at h
        rw [List.mem_singleton.mp h]
        exact hdir t ht
      · rw [if_neg hm] at h
        exact absurd h (List.not_mem_nil a)
  · intro tgts live p t ht hlive hm
    refine List.mem_flatMap.mpr ⟨t, ht, List.mem_append_left _ ?_⟩
    rw [if_pos hm]
    have hgen : (t.isGen && live p) = false := by
      rw [hlive, Bool.and_false]
    rw [hgen]
    simp

/-- Witness for the owners theorem at the concrete deleted-file request. -/
theorem owners_deleted_file_witness :
    Address.relative_file_path
        ⟨str "demo", some (str "generator"), none, none⟩ = none ∧
    OwnTgt.addr
        ⟨⟨str "demo", some (str "generator"), none, none⟩, true,
         [Glob.ext (str ".txt")], []⟩ ∈
      ownersForPath demoTgts demoLive (str "demo/deleted.txt") :=
  ⟨owners_deleted_file.1 demoTgts demoLive (str "demo/deleted.txt")
      ⟨str "demo", some (str "generator"), none, none⟩ (by decide) (by decide)
      (by decide),
   owners_deleted_file.2.1 demoTgts demoLive (str "demo/deleted.txt")
      ⟨⟨str "demo", some (str "generator"), none, none⟩, true,
       [Glob.ext (str ".txt")], []⟩ (by decide) (by decide) (by decide)⟩
